import Mathlib

/-!
Verification of the lazy-JSON backend module (`conda_forge_tick/lazy_json_backends.py`).

The Python module is shallowly embedded:

* backend hashmaps (`hset`/`hget`/`hdel`/`hkeys`/`hgetall`/`hsetnx`) are modelled as
  association lists `List (String × V)` with the usual first-match lookup; `hset` conses
  the new binding in front after erasing the old one, which matches the file backend's
  overwrite-the-file semantics;
* document values are a mutual inductive `JVal`/`JArr`/`JObj` covering JSON objects,
  arrays, strings, integers, booleans and null, plus the module's two tagged extension
  forms (`LazyJson` weak references and set-valued fields; set elements are modelled as
  strings, the only element type the module ever serializes);
* `dumps`/`loads` are an executable printer and parser mirroring
  `json.dumps(obj, sort_keys=True, indent=1, default=default)` and
  `json.loads(s, object_hook=object_hook)`;
* cryptographic digests (`hashlib.sha1`/`sha256`) are opaque parameters: every theorem
  that needs a digest takes the digest function as an argument, since no claim depends
  on properties of the hash beyond its observable output;
* the MongoDB class-level session state is a small state machine over well-nested scope
  programs.
-/

namespace LazyJsonBackends

/-! ## Association-list maps (Python dicts / backend hashmaps) -/

/-- First-match lookup in an association list, the map access `m[k]` / `m.get(k)`. -/
def alookup {V : Type} : List (String × V) → String → Option V
  | [], _ => none
  | p :: rest, key => if p.1 = key then some p.2 else alookup rest key

/-- `FileLazyJsonBackend.hexists`: key-presence test. -/
def hexists {V : Type} (m : List (String × V)) (k : String) : Bool :=
  (alookup m k).isSome

/-- `FileLazyJsonBackend.hset`: unconditional upsert (the file for the key is
overwritten; modelled by erasing any old binding and consing the new one). -/
def hset {V : Type} (m : List (String × V)) (k : String) (v : V) : List (String × V) :=
  (k, v) :: m.filter (fun p => p.1 != k)

/-- `FileLazyJsonBackend.hdel`: remove every listed key. -/
def hdel {V : Type} (m : List (String × V)) (ks : List String) : List (String × V) :=
  m.filter (fun p => !(ks.contains p.1))

/-- `FileLazyJsonBackend.hmset`: upsert every pair of the mapping. -/
def hmset {V : Type} (m : List (String × V)) (batch : List (String × V)) :
    List (String × V) :=
  batch.foldl (fun acc kv => hset acc kv.1 kv.2) m

/-- `LazyJsonBackend.hsetnx`: the generic set-if-absent of the abstract base class —
`if self.hexists(name, key): return False else: self.hset(name, key, value); return True`.
Returns the new map and the inserted flag. -/
def hsetnx {V : Type} (m : List (String × V)) (k : String) (v : V) :
    List (String × V) × Bool :=
  if hexists m k then (m, false) else (hset m k v, true)

/-! ## C7 — sharded on-disk layout (`get_sharded_path`) -/

/-- `os.path.split` (POSIX): split at the last `/`; the head keeps no trailing slashes
unless it consists of slashes only. -/
def ospathSplit (s : String) : String × String :=
  let cs := s.data
  let tl := (cs.reverse.takeWhile (fun c => c != '/')).reverse
  let hd := cs.take (cs.length - tl.length)
  let hd2 := if hd.all (fun c => c == '/') then hd
             else (hd.reverse.dropWhile (fun c => c == '/')).reverse
  (String.mk hd2, String.mk tl)

/-- `os.path.join` for plain relative components (none of the module's path parts
starts with a slash, so joining is interleaving `/`). -/
def ospathJoin : List String → String
  | [] => ""
  | [p] => p
  | p :: ps => p ++ "/" ++ ospathJoin ps

/-- `get_sharded_path` with `n_dirs=5` (the module's only call pattern). The SHA-1 hex
digest is an opaque parameter `sha1hex`; `hx[i]` for `i < 5` is modelled by mapping over
`take 5` of the digest characters. -/
def get_sharded_path (sha1hex : String → String) (file_path : String) : String :=
  if (ospathSplit file_path).1.length = 0 ∨ (ospathSplit file_path).1 = "lazy_json" then
    (ospathSplit file_path).2
  else
    ospathJoin ([(ospathSplit file_path).1]
      ++ ((sha1hex (ospathSplit file_path).2).data.take 5).map (fun c => String.mk [c])
      ++ [(ospathSplit file_path).2])

/-! ## C8 — mutation only inside an entered edit scope -/

/-- In-memory state of a `LazyJson` handle for the mutation-guard claim:
`_in_context`, the cached backend contents that `_load` would read, and `_data`
(`none` while unloaded). The document value is a top-level JSON object, modelled as an
association list over an arbitrary value type. -/
structure LJHandle (V : Type) where
  in_context : Bool
  stored : List (String × V)
  data : Option (List (String × V))

/-- `LazyJson._load`: populate `_data` on first use, otherwise do nothing. -/
def LJHandle.loadStep {V : Type} (s : LJHandle V) : LJHandle V :=
  if s.data.isSome then s else { s with data := some s.stored }

/-- `LazyJson.__setitem__`: `assert self._in_context; self._load(); self._data[key] = value`.
The returned flag is false when the assertion fails (the call raises and the handle is
left untouched). -/
def LJHandle.setitem {V : Type} (s : LJHandle V) (k : String) (v : V) :
    LJHandle V × Bool :=
  if s.in_context then
    ({ s.loadStep with data := some (hset (s.loadStep.data.getD []) k v) }, true)
  else (s, false)

/-- `LazyJson.__delitem__`: `assert self._in_context; self._load(); del self._data[v]`.
A deletion of an absent key raises KeyError (flag false) after loading. -/
def LJHandle.delitem {V : Type} (s : LJHandle V) (k : String) : LJHandle V × Bool :=
  if s.in_context then
    if hexists (s.loadStep.data.getD []) k then
      ({ s.loadStep with
          data := some ((s.loadStep.data.getD []).filter (fun p => p.1 != k)) }, true)
    else (s.loadStep, false)
  else (s, false)

/-- `LazyJson.clear`: `assert self._in_context; self._load(); self._data.clear()`. -/
def LJHandle.clearData {V : Type} (s : LJHandle V) : LJHandle V × Bool :=
  if s.in_context then
    ({ s.loadStep with data := some [] }, true)
  else (s, false)

/-! ## Sync engine (`_sync_hashmap`), modelled at the `{key: hash}` level

`hgetall(hashval=True)` gives each backend's `{key: sha256-of-value}` map. Fetching a
batch of values from the primary and `hmset`-ing them into a secondary makes the
secondary's hash for each pushed key equal to the primary's hash for that key (the
file backend recomputes the hash of the stored bytes, the MongoDB backend stores the
recomputed `sha256` alongside the value). The sync algorithm is therefore modelled as
a transformation of the `{key: hash}` maps. -/

/-- The staleness test of `_sync_hashmap`:
`node not in backend_hashes[backend_name] or backend_hashes[...][node] != primary_hashes[node]`,
for `node` ranging over the primary's keys. -/
def staleFor (primary sec : List (String × String)) (k : String) : Bool :=
  match alookup primary k with
  | none => false
  | some h => !(alookup sec k == some h)

/-- `del_nodes = curr_nodes - primary_nodes`: keys on the secondary that the primary
no longer has. -/
def delNodes (primary sec : List (String × String)) : List String :=
  (sec.map Prod.fst).filter (fun k => !(hexists primary k))

/-- `all_nodes_to_get`: the union over secondaries of their stale keys. The source
drains a Python set whose iteration order is unspecified; the model enumerates the
same set in the order of the primary's key list. -/
def allNodesToGet (primary : List (String × String))
    (secs : List (List (String × String))) : List String :=
  (primary.map Prod.fst).filter (fun k => secs.any (fun sec => staleFor primary sec k))

/-- The batch loop `while all_nodes_to_get: nodes_to_get = [pop() for _ in
range(min(len, n_per_batch))]`, as a list of batches. (With `n = 0` the source loops
forever; the model returns no batches and every batching theorem assumes `0 < n`.) -/
def chunksGo (n : Nat) : Nat → List String → List (List String)
  | _, [] => []
  | 0, _ :: _ => []
  | fuel + 1, x :: xs => (x :: xs).take n :: chunksGo n fuel ((x :: xs).drop n)

def chunksOf (n : Nat) (l : List String) : List (List String) :=
  chunksGo n l.length l

/-- Pushing one fetched batch into one secondary:
`_batch = {node: value for node, value in batch.items() if node not in
backend_hashes[...] or backend_hashes[...][node] != primary_hashes[node]}` followed by
`backend.hmset(hashmap, _batch)`. `secOrig` is the secondary's hash map as captured by
`hgetall` before the loop; `sec` is its current state. Setting the primary's value
for `k` stores the primary's hash for `k`. -/
def pushBatch (primary secOrig sec : List (String × String)) (chunk : List String) :
    List (String × String) :=
  (chunk.filter (fun k => staleFor primary secOrig k)).foldl
    (fun acc k =>
      match alookup primary k with
      | some h => hset acc k h
      | none => acc) sec

/-- `_sync_hashmap` as it acts on one secondary: delete `del_nodes`, then push every
batch of the shared to-fetch list. -/
def syncSecondary (primary secOrig : List (String × String))
    (chunks : List (List String)) : List (String × String) :=
  chunks.foldl (fun acc chunk => pushBatch primary secOrig acc chunk)
    (hdel secOrig (delNodes primary secOrig))

/-- `_sync_hashmap`: every secondary is deleted-from and then receives, per batch, the
sub-batch that is stale for it. -/
def syncHashmap (n : Nat) (primary : List (String × String))
    (secs : List (List (String × String))) : List (List (String × String)) :=
  secs.map (fun sec => syncSecondary primary sec (chunksOf n (allNodesToGet primary secs)))

/-! ## C4 — MongoDB `transaction_context` and the class-level `_session` -/

/-- The class-level state of `MongoDBLazyJsonBackend` plus the client sessions that
are physically open: `handle` is `MongoDBLazyJsonBackend._session`, `opened` the ids
of sessions whose `with client.start_session()` block is still active, `next` a
fresh-id counter. -/
structure MongoSessions where
  handle : Option Nat
  opened : List Nat
  next : Nat
deriving DecidableEq

/-- Clean state of a fresh process. -/
def mongoClean : MongoSessions := ⟨none, [], 0⟩

/-- Well-nested programs of `transaction_context` scopes: `skip` does nothing, `err`
raises, `seq` sequences (aborting on error), `scope p` runs `p` inside
`with backend.transaction_context()`. -/
inductive ScopeProg where
  | skip
  | err
  | seq (p q : ScopeProg)
  | scope (body : ScopeProg)
deriving DecidableEq

/-- Execute a scope program. Returns the final state, whether execution finished
without an exception, and the intermediate states after each scope enter/exit (used to
count how many sessions are simultaneously open).

`transaction_context` (source): if `_session is None`, start a session, set
`_session` to it, run the body; on exit — normal or error — the `with` blocks unwind
(commit/abort and close the session) and the `finally` sets `_session = None`.
Otherwise run the body re-using the open session; the `finally` still sets
`_session = None`. -/
def execScopes : ScopeProg → MongoSessions → MongoSessions × Bool × List MongoSessions
  | .skip, s => (s, true, [])
  | .err, s => (s, false, [])
  | .seq p q, s =>
    match execScopes p s with
    | (s1, true, t1) =>
      match execScopes q s1 with
      | (s2, ok2, t2) => (s2, ok2, t1 ++ t2)
    | (s1, false, t1) => (s1, false, t1)
  | .scope p, s =>
    match s.handle with
    | some _ =>
      match execScopes p s with
      | (s1, ok, t) =>
        ({ s1 with handle := none }, ok, t ++ [{ s1 with handle := none }])
    | none =>
      match execScopes p
        { handle := some s.next, opened := s.next :: s.opened, next := s.next + 1 } with
      | (s1, ok, t) =>
        (⟨none, s1.opened.erase s.next, s1.next⟩, ok,
          { handle := some s.next, opened := s.next :: s.opened, next := s.next + 1 }
            :: (t ++ [⟨none, s1.opened.erase s.next, s1.next⟩]))

/-- The largest number of simultaneously open sessions along a trace. -/
def maxOpenSessions (tr : List MongoSessions) : Nat :=
  (tr.map (fun s => s.opened.length)).foldr max 0

/-! ## C9 — reserved documents excluded from the catch-all listing -/

/-- The two documents `FileLazyJsonBackend.hkeys` subtracts from the `lazy_json`
listing. -/
def reservedRootFiles : List String :=
  ["ranked_hubs_authorities.json", "all_feedstocks.json"]

/-- A file name carries the `.json` suffix (the `glob.glob("*.json")` pattern). -/
def hasJsonSuffix (f : String) : Bool :=
  ".json".data.isSuffixOf f.data

/-- `glob.glob("*.json")` over the modelled working-directory root `fs`
(an association list of file name to contents). -/
def globJson (fs : List (String × String)) : List String :=
  (fs.map Prod.fst).filter (fun f => hasJsonSuffix f)

/-- `FileLazyJsonBackend.hkeys("lazy_json")`: the top-level `*.json` names minus the
two reserved files, stripped of the 5-character `.json` extension
(`os.path.basename(fname)[:-len(".json")]`; the basename of a root-level name is
itself). -/
def fileHkeysLazyJson (fs : List (String × String)) : List String :=
  ((globJson fs).filter (fun f => !(reservedRootFiles.contains f))).map
    (fun f => String.mk (f.data.take (f.data.length - 5)))

/-- `FileLazyJsonBackend.hget("lazy_json", key)`: read `key.json` at the root
(`get_sharded_path` keeps catch-all files unsharded). -/
def fileHgetLazyJson (fs : List (String × String)) (key : String) : Option String :=
  alookup fs (key ++ ".json")

/-- `FileLazyJsonBackend.hexists("lazy_json", key)`. -/
def fileHexistsLazyJson (fs : List (String × String)) (key : String) : Bool :=
  (fs.map Prod.fst).contains (key ++ ".json")

/-- `FileLazyJsonBackend.hgetall("lazy_json", hashval=True)`: one entry per key of
`hkeys`, with the recomputed digest of the file contents. -/
def fileHgetallLazyJson (sha256 : String → String) (fs : List (String × String)) :
    List (String × String) :=
  (fileHkeysLazyJson fs).map (fun key =>
    (key, sha256 ((fileHgetLazyJson fs key).getD "")))

/-! ## Document values (`JVal`) and canonical serialization (`dumps`)

The module serializes with `json.dumps(obj, sort_keys=True, indent=1,
default=default)`: object keys sorted, one space of indentation per nesting level,
`LazyJson` values encoded as `{"__lazy_json__": file_name}` and sets as
`{"__set__": true, "elements": sorted(elements)}`. Numbers are modelled as integers
and set elements as strings (the only set elements the module stores). Key sorting
and set-element sorting are applied by a canonicalization pass `canonV` before a
plain structural printer, which is the same function composition the library
performs. -/

mutual
inductive JVal where
  | null
  | bool (b : Bool)
  | num (n : Int)
  | str (s : String)
  | arr (xs : JArr)
  | obj (fs : JObj)
  | lazy (fileName : String)
  | jset (elems : List String)
deriving DecidableEq
inductive JArr where
  | nil
  | cons (hd : JVal) (tl : JArr)
deriving DecidableEq
inductive JObj where
  | nil
  | cons (k : String) (v : JVal) (tl : JObj)
deriving DecidableEq
end

/-- Code-point lexicographic strict comparison of character lists — Python's `<` on
strings. -/
def charListLt : List Char → List Char → Bool
  | [], ys => !ys.isEmpty
  | _ :: _, [] => false
  | x :: xs, y :: ys => if x < y then true else if y < x then false else charListLt xs ys

/-- Python string `<`. -/
def strLt (a b : String) : Bool := charListLt a.data b.data

/-- Python string `<=`. -/
def strLe (a b : String) : Bool := strLt a b || (a == b)

/-- Insertion step of `sorted` on strings. -/
def insertSorted (x : String) : List String → List String
  | [] => [x]
  | y :: ys => if strLe x y then x :: y :: ys else y :: insertSorted x ys

/-- `sorted(elements)` for a set-valued field. -/
def sortStrings : List String → List String
  | [] => []
  | x :: xs => insertSorted x (sortStrings xs)

/-- Insertion step of key-sorting an object. -/
def insertFieldSorted (k : String) (v : JVal) : JObj → JObj
  | .nil => .cons k v .nil
  | .cons k2 v2 tl =>
    if strLe k k2 then .cons k v (.cons k2 v2 tl)
    else .cons k2 v2 (insertFieldSorted k v tl)

/-- `sort_keys=True`: sort an object's fields by key. -/
def sortFields : JObj → JObj
  | .nil => .nil
  | .cons k v tl => insertFieldSorted k v (sortFields tl)

mutual
/-- The sorting pass of `dumps`: every object's keys and every set's elements are put
in sorted order (the in-memory iteration order of dicts and sets is irrelevant to the
canonical bytes). -/
def canonV : JVal → JVal
  | .null => .null
  | .bool b => .bool b
  | .num n => .num n
  | .str s => .str s
  | .arr xs => .arr (canonA xs)
  | .obj fs => .obj (sortFields (canonF fs))
  | .lazy f => .lazy f
  | .jset es => .jset (sortStrings es)
def canonA : JArr → JArr
  | .nil => .nil
  | .cons x xs => .cons (canonV x) (canonA xs)
def canonF : JObj → JObj
  | .nil => .nil
  | .cons k v tl => .cons k (canonV v) (canonF tl)
end

/-- Decimal digit to character. -/
def digitChar (d : Nat) : Char := Char.ofNat (48 + d)

/-- Fueled digit extraction (fuel ≥ n suffices). -/
def natDigitsGo : Nat → Nat → List Char → List Char
  | _, 0, acc => acc
  | 0, _ + 1, acc => acc
  | f + 1, m + 1, acc => natDigitsGo f ((m + 1) / 10) (digitChar ((m + 1) % 10) :: acc)

/-- Decimal digits of a natural number. -/
def natDigits (n : Nat) : List Char :=
  if n = 0 then ['0'] else natDigitsGo n n []

/-- Serialize an integer. -/
def printInt (n : Int) : List Char :=
  if n < 0 then '-' :: natDigits n.natAbs else natDigits n.natAbs

/-- JSON string escaping; the canonical corpus is printable ASCII, where only `"` and
`\\` need escapes. -/
def escapeChars : List Char → List Char
  | [] => []
  | c :: cs =>
    if c = '"' then '\\' :: '"' :: escapeChars cs
    else if c = '\\' then '\\' :: '\\' :: escapeChars cs
    else c :: escapeChars cs

/-- Serialize a string. -/
def printStr (s : String) : List Char := '"' :: (escapeChars s.data ++ ['"'])

/-- `indent=1`: one space per nesting level. -/
def nsp (n : Nat) : List Char := List.replicate n ' '

/-- The elements of a set after the first, each on its own line. -/
def printStrElemsRest (d : Nat) : List String → List Char
  | [] => []
  | s :: ss => ',' :: '\n' :: (nsp d ++ printStr s ++ printStrElemsRest d ss)

/-- A sorted set's `elements` array. -/
def printStrArr (d : Nat) : List String → List Char
  | [] => ['[', ']']
  | s :: ss =>
    '[' :: '\n' :: (nsp (d + 1) ++ printStr s ++ printStrElemsRest (d + 1) ss
      ++ '\n' :: (nsp d ++ [']']))

mutual
/-- The structural printer at depth `d` (identical to the library's pretty printer
with `indent=1`; sorting has already been applied by `canonV`). `LazyJson` values
print through `default` as `{"__lazy_json__": file_name}` and sets as
`{"__set__": true, "elements": [...]}`. -/
def printVal (d : Nat) : JVal → List Char
  | .null => "null".data
  | .bool true => "true".data
  | .bool false => "false".data
  | .num n => printInt n
  | .str s => printStr s
  | .arr .nil => ['[', ']']
  | .arr (.cons x xs) =>
    '[' :: '\n' :: (nsp (d + 1) ++ printVal (d + 1) x ++ printElemsRest (d + 1) xs
      ++ '\n' :: (nsp d ++ [']']))
  | .obj .nil => ['{', '}']
  | .obj (.cons k v fs) =>
    '{' :: '\n' :: (nsp (d + 1) ++ printStr k ++ ':' :: ' ' :: (printVal (d + 1) v
      ++ printFieldsRest (d + 1) fs ++ '\n' :: (nsp d ++ ['}'])))
  | .lazy f =>
    '{' :: '\n' :: (nsp (d + 1) ++ printStr "__lazy_json__" ++ ':' :: ' '
      :: (printStr f ++ '\n' :: (nsp d ++ ['}'])))
  | .jset es =>
    '{' :: '\n' :: (nsp (d + 1) ++ printStr "__set__" ++ ':' :: ' '
      :: ('t' :: 'r' :: 'u' :: 'e' :: ',' :: '\n' :: (nsp (d + 1)
        ++ printStr "elements" ++ ':' :: ' ' :: (printStrArr (d + 1) es
          ++ '\n' :: (nsp d ++ ['}'])))))
def printElemsRest (d : Nat) : JArr → List Char
  | .nil => []
  | .cons x xs => ',' :: '\n' :: (nsp d ++ printVal d x ++ printElemsRest d xs)
def printFieldsRest (d : Nat) : JObj → List Char
  | .nil => []
  | .cons k v fs =>
    ',' :: '\n' :: (nsp d ++ printStr k ++ ':' :: ' '
      :: (printVal d v ++ printFieldsRest d fs))
end

/-- `dumps(obj, sort_keys=True, indent=1, default=default)`. -/
def dumps (v : JVal) : String := String.mk (printVal 0 (canonV v))

/-! ## Deserialization: `object_hook` and the parser (`loads`) -/

/-- Field lookup in a parsed JSON object (`key in dct` / `dct[key]`). -/
def lookupF : JObj → String → Option JVal
  | .nil, _ => none
  | .cons k v tl, key => if k = key then some v else lookupF tl key

/-- Extract the string elements of a parsed array (`set(dct["elements"])`; the
embedding restricts set elements to strings). -/
def strListOfArr : JArr → Option (List String)
  | .nil => some []
  | .cons (.str s) tl => (strListOfArr tl).map (fun l => s :: l)
  | .cons _ _ => none

/-- `object_hook`: dispatch on the marker keys. `"__lazy_json__"` present — return a
`LazyJson` handle bound to its value, all other fields discarded (a non-string value
would crash `LazyJson.__init__`, modelled as `none`); otherwise `"__set__"` present —
whatever its value — return the set of the `"elements"` field, failing (KeyError) when
`"elements"` is absent; otherwise return the dict unchanged. -/
def object_hook (fs : JObj) : Option JVal :=
  match lookupF fs "__lazy_json__" with
  | some (.str s) => some (.lazy s)
  | some _ => none
  | none =>
    match lookupF fs "__set__" with
    | some _ =>
      match lookupF fs "elements" with
      | some (.arr xs) => (strListOfArr xs).map JVal.jset
      | some _ => none
      | none => none
    | none => some (.obj fs)

/-- JSON whitespace. -/
def wsChar (c : Char) : Bool :=
  (c == ' ') || (c == '\n') || (c == '\t') || (c == '\r')

/-- Drop leading whitespace. -/
def skipWs : List Char → List Char
  | [] => []
  | c :: cs => if wsChar c then skipWs cs else c :: cs

mutual
/-- Parse the body of a string literal after the opening quote, handling the two
escapes the canonical corpus uses. Returns the contents and the input after the
closing quote. -/
def parseStrBody : List Char → Option (List Char × List Char)
  | [] => none
  | c :: cs =>
    if c = '"' then some ([], cs)
    else if c = '\\' then parseEscape cs
    else
      match parseStrBody cs with
      | some r => some (c :: r.1, r.2)
      | none => none
/-- The character after a backslash. -/
def parseEscape : List Char → Option (List Char × List Char)
  | [] => none
  | e :: cs2 =>
    if e = '"' || e = '\\' then
      match parseStrBody cs2 with
      | some r => some (e :: r.1, r.2)
      | none => none
    else none
end

/-- Decimal value of a digit character. -/
def digitVal (c : Char) : Nat := c.toNat - 48

/-- Consume decimal digits, accumulating their value. -/
def parseDigits : List Char → Nat → Nat × List Char
  | [], acc => (acc, [])
  | c :: cs, acc =>
    if c.isDigit then parseDigits cs (acc * 10 + digitVal c) else (acc, c :: cs)

mutual
/-- Parse one JSON value (fueled recursive descent; any fuel at least the number of
parser steps works, and `loads` passes the input length plus one). Objects go through
`object_hook`, as `json.loads(s, object_hook=object_hook)` does. -/
def parseVal : Nat → List Char → Option (JVal × List Char)
  | 0, _ => none
  | fuel + 1, cs =>
    match skipWs cs with
    | [] => none
    | c :: rest =>
      if c = 'n' then
        match rest with
        | 'u' :: 'l' :: 'l' :: rest2 => some (.null, rest2)
        | _ => none
      else if c = 't' then
        match rest with
        | 'r' :: 'u' :: 'e' :: rest2 => some (.bool true, rest2)
        | _ => none
      else if c = 'f' then
        match rest with
        | 'a' :: 'l' :: 's' :: 'e' :: rest2 => some (.bool false, rest2)
        | _ => none
      else if c = '"' then
        match parseStrBody rest with
        | some r => some (.str (String.mk r.1), r.2)
        | none => none
      else if c = '-' then
        match rest with
        | c2 :: rest2 =>
          if c2.isDigit then
            match parseDigits rest2 (digitVal c2) with
            | (n, rest3) => some (.num (-(n : Int)), rest3)
          else none
        | [] => none
      else if c = '[' then parseElems fuel rest
      else if c = '{' then parseFields fuel rest
      else if c.isDigit then
        match parseDigits rest (digitVal c) with
        | (n, rest2) => some (.num ((n : Int)), rest2)
      else none
/-- After `[`: empty array or first element then the tail. -/
def parseElems : Nat → List Char → Option (JVal × List Char)
  | 0, _ => none
  | fuel + 1, cs =>
    match skipWs cs with
    | [] => none
    | c :: rest =>
      if c = ']' then some (.arr .nil, rest)
      else
        match parseVal fuel (c :: rest) with
        | some (v, rest2) =>
          match parseElemsTail fuel rest2 with
          | some (vs, rest3) => some (.arr (.cons v vs), rest3)
          | none => none
        | none => none
/-- After one array element: `,` and another element, or `]`. -/
def parseElemsTail : Nat → List Char → Option (JArr × List Char)
  | 0, _ => none
  | fuel + 1, cs =>
    match skipWs cs with
    | [] => none
    | c :: rest =>
      if c = ',' then
        match parseVal fuel rest with
        | some (v, rest2) =>
          match parseElemsTail fuel rest2 with
          | some (vs, rest3) => some (.cons v vs, rest3)
          | none => none
        | none => none
      else if c = ']' then some (.nil, rest)
      else none
/-- After `{`: empty object or first field then the tail; the collected fields go
through `object_hook`. -/
def parseFields : Nat → List Char → Option (JVal × List Char)
  | 0, _ => none
  | fuel + 1, cs =>
    match skipWs cs with
    | [] => none
    | c :: rest =>
      if c = '}' then
        match object_hook .nil with
        | some v => some (v, rest)
        | none => none
      else if c = '"' then
        match parseStrBody rest with
        | some kr =>
          match skipWs kr.2 with
          | ':' :: rest2 =>
            match parseVal fuel rest2 with
            | some (v, rest3) =>
              match parseFieldsTail fuel rest3 with
              | some (fs, rest4) =>
                match object_hook (.cons (String.mk kr.1) v fs) with
                | some w => some (w, rest4)
                | none => none
              | none => none
            | none => none
          | _ => none
        | none => none
      else none
/-- After one field: `,` and another field, or `}`. -/
def parseFieldsTail : Nat → List Char → Option (JObj × List Char)
  | 0, _ => none
  | fuel + 1, cs =>
    match skipWs cs with
    | [] => none
    | c :: rest =>
      if c = ',' then
        match skipWs rest with
        | '"' :: rest1 =>
          match parseStrBody rest1 with
          | some kr =>
            match skipWs kr.2 with
            | ':' :: rest3 =>
              match parseVal fuel rest3 with
              | some (v, rest4) =>
                match parseFieldsTail fuel rest4 with
                | some (fs, rest5) => some (.cons (String.mk kr.1) v fs, rest5)
                | none => none
              | none => none
            | _ => none
          | none => none
        | _ => none
      else if c = '}' then some (.nil, rest)
      else none
end

/-- `json.loads(s, object_hook=object_hook)` on the canonical grammar the module
emits: parse one value and require only trailing whitespace. -/
def loads (s : String) : Option JVal :=
  match parseVal (s.data.length + 1) s.data with
  | some (v, rest) => if skipWs rest = [] then some v else none
  | none => none

/-! ## C10 — `object_hook` dispatches on marker keys alone -/

/-- A parsed array of string literals. -/
def strsToArr : List String → JArr
  | [] => .nil
  | s :: ss => .cons (.str s) (strsToArr ss)

/-! ## C2 — hash-gated writes of `LazyJson._dump` -/

/-- State of a loaded `LazyJson` for dirty tracking: the in-memory value and
`_data_hash_at_load`. -/
structure LJDoc where
  data : JVal
  hash_at_load : String
deriving DecidableEq

/-- `LazyJson._dump` (without the purge step, which only evicts the in-memory value):
`data_str = dumps(self._data); curr_hash = sha256(data_str)`; if the hash moved or
`force` is set, update `_data_hash_at_load`, write the file cache, then write every
backend of the active backend set except the file backend. Returns the new state and
the ordered list of backends written (`"file"` is the file cache). `__exit__` calls
this with `force=False`, `flush_to_backends` with `force=True`. -/
def ljdump (sha256 : String → String) (backends : List String) (force : Bool)
    (st : LJDoc) : LJDoc × List String :=
  if sha256 (dumps st.data) ≠ st.hash_at_load ∨ force = true then
    ({ data := st.data, hash_at_load := sha256 (dumps st.data) },
     "file" :: backends.filter (fun b => b != "file"))
  else (st, [])

/-! ## C3 — canonical values and round-trip infrastructure -/

/-- Printable-ASCII character: the canonical corpus stays inside the range where the
library's encoder emits the character raw (everything else would be `\\u`-escaped). -/
def wfChar (c : Char) : Bool := (32 ≤ c.toNat) && (c.toNat ≤ 126)

/-- All characters printable ASCII. -/
def wfString (s : String) : Bool := s.data.all wfChar

/-- Strictly ascending under Python string `<`. -/
def chainLt : List String → Bool
  | [] => true
  | [_] => true
  | a :: b :: rest => strLt a b && chainLt (b :: rest)

/-- The key list of an object. -/
def keysF : JObj → List String
  | .nil => []
  | .cons k _ tl => k :: keysF tl

mutual
/-- Canonical document values: object keys strictly sorted and free of the two marker
keys, set elements strictly sorted, strings printable ASCII. These are exactly the
in-memory forms `loads` produces from canonical bytes (Python dict/set contents are
unordered, so sorted order is the canonical representative). -/
def canonicalV : JVal → Bool
  | .null => true
  | .bool _ => true
  | .num _ => true
  | .str s => wfString s
  | .arr xs => canonicalA xs
  | .obj fs => canonicalF fs && chainLt (keysF fs)
      && !((keysF fs).contains "__lazy_json__") && !((keysF fs).contains "__set__")
  | .lazy f => wfString f
  | .jset es => es.all wfString && chainLt es
def canonicalA : JArr → Bool
  | .nil => true
  | .cons x xs => canonicalV x && canonicalA xs
def canonicalF : JObj → Bool
  | .nil => true
  | .cons k v tl => wfString k && canonicalV v && canonicalF tl
end

/-- Reference digit expansion (proof side). -/
def digitsRec (n : Nat) : List Char :=
  if h : n = 0 then [] else digitsRec (n / 10) ++ [digitChar (n % 10)]
decreasing_by exact Nat.div_lt_self (Nat.pos_of_ne_zero h) (by omega)

/-- Accumulated value of a digit run. -/
def valAcc (a : Nat) (ds : List Char) : Nat :=
  ds.foldl (fun x c => x * 10 + digitVal c) a

/-- Anything that cannot continue a number literal. -/
def headNonDigit : List Char → Bool
  | [] => true
  | c :: _ => !c.isDigit

/-! Whitespace and head-shape lemmas. -/

/-- Whitespace-only run. -/
def wsOnly (l : List Char) : Bool := l.all wsChar

/-! Fuel accounting: enough parser steps for each printed value. -/

mutual
/-- Parser steps sufficient for one printed value. -/
def pfuelV : JVal → Nat
  | .null | .bool _ | .num _ | .str _ => 1
  | .arr xs => 2 + pfuelA xs
  | .obj fs => 2 + pfuelF fs
  | .lazy _ => 4
  | .jset es => 9 + 2 * es.length
/-- Parser steps sufficient for an element tail. -/
def pfuelA : JArr → Nat
  | .nil => 1
  | .cons x xs => 1 + pfuelV x + pfuelA xs
/-- Parser steps sufficient for a field tail. -/
def pfuelF : JObj → Nat
  | .nil => 1
  | .cons _ v fs => 1 + pfuelV v + pfuelF fs
end

/-- A nested example value exercising objects, arrays, numbers, strings with
escapes, a lazy reference and a set field. -/
def rtExample : JVal :=
  .obj (.cons "gamma" (.lazy "node_attrs/foo")
    (.cons "alpha" (.arr (.cons (.num (-3)) (.cons (.str "x\"y") .nil)))
      (.cons "beta" (.jset ["b", "a"])
        (.cons "delta" (.obj .nil) .nil))))

@[simp] theorem alookup_nil {V : Type} (key : String) :
    alookup ([] : List (String × V)) key = none := rfl

@[simp] theorem alookup_cons {V : Type} (p : String × V) (rest : List (String × V))
    (key : String) :
    alookup (p :: rest) key = if p.1 = key then some p.2 else alookup rest key := rfl

theorem alookup_hset {V : Type} (m : List (String × V)) (k k' : String) (v : V) :
    alookup (hset m k v) k' = if k = k' then some v else alookup m k' := by
  unfold hset
  by_cases hk : k = k'
  · subst hk; simp
  · simp only [alookup_cons, if_neg hk]
    induction m with
    | nil => simp
    | cons p rest ih =>
      by_cases hp : p.1 = k
      · have hbne : (p.1 != k) = false := by simp [hp]
        simp only [List.filter_cons, hbne, Bool.false_eq_true, if_false]
        rw [ih]
        have hne : ¬ p.1 = k' := by rw [hp]; exact hk
        simp [hne]
      · have hbne : (p.1 != k) = true := by simpa using hp
        simp only [List.filter_cons, hbne, if_true, alookup_cons]
        by_cases hpk : p.1 = k'
        · simp [hpk]
        · simp only [if_neg hpk]; exact ih

theorem alookup_hdel {V : Type} (m : List (String × V)) (ks : List String) (k : String) :
    alookup (hdel m ks) k = if ks.contains k then none else alookup m k := by
  induction m with
  | nil => simp [hdel]
  | cons p rest ih =>
    simp only [hdel, List.filter_cons] at *
    by_cases hmem : ks.contains p.1
    · simp only [hmem, Bool.not_true, Bool.false_eq_true, if_false]
      rw [ih]
      by_cases hpk : p.1 = k
      · subst hpk
        have hin : p.1 ∈ ks := by simpa using hmem
        simp [hin]
      · simp [hpk]
    · have hmem' : (ks.contains p.1) = false := by simpa using hmem
      simp only [hmem', Bool.not_false, if_true, alookup_cons]
      by_cases hpk : p.1 = k
      · subst hpk
        have hnin : ¬ p.1 ∈ ks := by simpa using hmem
        simp [hnin]
      · simp only [if_neg hpk]; exact ih

theorem alookup_none_of_not_mem_keys {V : Type} (m : List (String × V)) (k : String)
    (h : ¬ k ∈ m.map Prod.fst) : alookup m k = none := by
  induction m with
  | nil => rfl
  | cons p rest ih =>
    simp only [List.map_cons, List.mem_cons] at h
    push_neg at h
    rw [alookup_cons, if_neg (fun hp => h.1 hp.symm)]
    exact ih h.2

theorem mem_keys_of_alookup_some {V : Type} (m : List (String × V)) (k : String) (v : V)
    (h : alookup m k = some v) : k ∈ m.map Prod.fst := by
  induction m with
  | nil => simp [alookup] at h
  | cons p rest ih =>
    rw [alookup_cons] at h
    by_cases hpk : p.1 = k
    · simp [← hpk]
    · rw [if_neg hpk] at h
      simp only [List.map_cons, List.mem_cons]
      exact Or.inr (ih h)

/-! ## C6 — `hsetnx` inserts when absent and never overwrites -/

/-- C6: on an absent key, `hsetnx(key, v1)` inserts `v1` and returns true; a subsequent
`hsetnx(key, v2)` returns false and leaves the stored value equal to `v1`. -/
theorem hsetnx_set_if_absent {V : Type} (m : List (String × V)) (k : String) (v1 v2 : V)
    (habs : alookup m k = none) :
    (hsetnx m k v1).2 = true ∧
    alookup (hsetnx m k v1).1 k = some v1 ∧
    (hsetnx (hsetnx m k v1).1 k v2).2 = false ∧
    alookup (hsetnx (hsetnx m k v1).1 k v2).1 k = some v1 := by
  have h1 : hexists m k = false := by simp [hexists, habs]
  have hfirst : hsetnx m k v1 = (hset m k v1, true) := by
    simp [hsetnx, h1]
  have hlook : alookup (hset m k v1) k = some v1 := by
    rw [alookup_hset]; simp
  have h2 : hexists (hset m k v1) k = true := by simp [hexists, hlook]
  refine ⟨by rw [hfirst], by rw [hfirst]; exact hlook, ?_, ?_⟩
  · rw [hfirst]; simp [hsetnx, h2]
  · rw [hfirst]; simp only [hsetnx, h2, if_true, if_pos]; exact hlook

/-- Witness for C6 on a concrete map. -/
theorem hsetnx_set_if_absent_witness :
    alookup [("b", "x")] "a" = none ∧
    ((hsetnx [("b", "x")] "a" "v1").2 = true ∧
     alookup (hsetnx [("b", "x")] "a" "v1").1 "a" = some "v1" ∧
     (hsetnx (hsetnx [("b", "x")] "a" "v1").1 "a" "v2").2 = false ∧
     alookup (hsetnx (hsetnx [("b", "x")] "a" "v1").1 "a" "v2").1 "a" = some "v1") :=
  ⟨by decide, hsetnx_set_if_absent [("b", "x")] "a" "v1" "v2" (by decide)⟩

theorem string_eq_of_data {s t : String} (h : s.data = t.data) : s = t := by
  cases s with
  | mk a => cases t with
    | mk b => exact congrArg String.mk (by simpa using h)

theorem takeWhile_append_stop {xs ys : List Char}
    (h : ∀ c ∈ xs, (c != '/') = true) :
    (xs ++ '/' :: ys).takeWhile (fun c => c != '/') = xs := by
  induction xs with
  | nil => simp [List.takeWhile]
  | cons x xs ih =>
    have hx : (x != '/') = true := h x (by simp)
    simp only [List.cons_append, List.takeWhile_cons, hx, if_true]
    rw [ih (fun c hc => h c (by simp [hc]))]

theorem ospathSplit_of_append {a b : List Char}
    (ha : ∀ c ∈ a, (c != '/') = true) (hb : ∀ c ∈ b, (c != '/') = true)
    (hne : a ≠ []) :
    ospathSplit (String.mk (a ++ '/' :: b)) = (String.mk a, String.mk b) := by
  unfold ospathSplit
  simp only
  have hrev : (a ++ '/' :: b).reverse = b.reverse ++ '/' :: a.reverse := by
    simp
  have htl : ((a ++ '/' :: b).reverse.takeWhile (fun c => c != '/')).reverse = b := by
    rw [hrev, takeWhile_append_stop (fun c hc => hb c (by simpa using hc))]
    simp
  rw [htl]
  have hlen : (a ++ '/' :: b).length - b.length = a.length + 1 := by
    simp; omega
  have htake : (a ++ '/' :: b).take (a.length + 1) = a ++ ['/'] := by
    rw [List.take_append_eq_append_take]
    simp
  rw [hlen, htake]
  obtain ⟨x, a', rfl⟩ : ∃ x a', a = x :: a' := by
    cases a with
    | nil => exact absurd rfl hne
    | cons x a' => exact ⟨x, a', rfl⟩
  have hx : (x == '/') = false := by
    have := ha x (by simp)
    simpa using this
  have hall : ((x :: a') ++ ['/']).all (fun c => c == '/') = false := by
    simp only [List.cons_append, List.all_cons, hx, Bool.false_and]
  rw [hall]
  simp only [Bool.false_eq_true, if_false]
  have hrev2 : ((x :: a') ++ ['/']).reverse = '/' :: (x :: a').reverse := by
    simp
  rw [hrev2, List.dropWhile_cons]
  simp only [beq_self_eq_true, if_true]
  have hdrop : ∀ l : List Char, (∀ c ∈ l, (c != '/') = true) →
      l.dropWhile (fun c => c == '/') = l := by
    intro l hl
    cases l with
    | nil => rfl
    | cons y ys =>
      rw [List.dropWhile_cons]
      have : (y == '/') = false := by simpa using hl y (by simp)
      simp [this]
  rw [hdrop _ (fun c hc => ha c (List.mem_reverse.mp hc))]
  simp

/-- C7: for any non-catch-all hashmap `name` and slash-free key, the file backend path
is `name/h0/h1/h2/h3/h4/key.json`, where `h0..h4` are the first five hex characters of
the digest of `"key.json"`; for the catch-all hashmap `lazy_json` the path is
`key.json` at the root. Path construction is a pure function of the name, the key and
the digest (no directory scan). -/
theorem get_sharded_path_shards (sha1hex : String → String) (name key : String)
    (d0 d1 d2 d3 d4 : Char) (rest : List Char)
    (hname_ne : name ≠ "") (hname_catch : name ≠ "lazy_json")
    (hname : ∀ c ∈ name.data, (c != '/') = true)
    (hkey : ∀ c ∈ key.data, (c != '/') = true)
    (hdig : (sha1hex (key ++ ".json")).data = d0 :: d1 :: d2 :: d3 :: d4 :: rest) :
    get_sharded_path sha1hex (name ++ "/" ++ key ++ ".json") =
      name ++ "/" ++ String.mk [d0] ++ "/" ++ String.mk [d1] ++ "/" ++ String.mk [d2]
        ++ "/" ++ String.mk [d3] ++ "/" ++ String.mk [d4] ++ "/" ++ (key ++ ".json") ∧
    get_sharded_path sha1hex ("lazy_json" ++ "/" ++ key ++ ".json") = key ++ ".json" := by
  have hbase : ∀ c ∈ (key ++ ".json").data, (c != '/') = true := by
    intro c hc
    rw [String.data_append] at hc
    rcases List.mem_append.mp hc with h | h
    · exact hkey c h
    · fin_cases h <;> decide
  have hmk : ∀ s : String, String.mk s.data = s := by
    intro s; cases s; rfl
  have hpath : String.mk (name.data ++ '/' :: (key ++ ".json").data)
      = name ++ "/" ++ key ++ ".json" := by
    apply string_eq_of_data
    simp [String.data_append]
  have hnam_ne : name.data ≠ [] := by
    intro h
    apply hname_ne
    apply string_eq_of_data
    rw [h]
  have hsplit : ospathSplit (name ++ "/" ++ key ++ ".json")
      = (name, key ++ ".json") := by
    have h := ospathSplit_of_append hname hbase hnam_ne
    rw [hpath] at h
    rw [h, hmk, hmk]
  constructor
  · have hcond : ¬ ((ospathSplit (name ++ "/" ++ key ++ ".json")).1.length = 0 ∨
        (ospathSplit (name ++ "/" ++ key ++ ".json")).1 = "lazy_json") := by
      rw [hsplit]
      push_neg
      refine ⟨?_, hname_catch⟩
      intro h
      apply hname_ne
      apply string_eq_of_data
      have h0 : name.data.length = 0 := h
      rw [List.length_eq_zero] at h0
      rw [h0]
    rw [get_sharded_path, if_neg hcond, hsplit]
    simp only [hdig, List.take_succ_cons, List.take_zero, List.map_cons, List.map_nil]
    apply string_eq_of_data
    simp [ospathJoin, String.data_append]
  · have hlazy : ∀ c ∈ ("lazy_json" : String).data, (c != '/') = true := by decide
    have hlz_ne : ("lazy_json" : String).data ≠ [] := by decide
    have hpath2 : String.mk (("lazy_json" : String).data ++ '/' :: (key ++ ".json").data)
        = "lazy_json" ++ "/" ++ key ++ ".json" := by
      apply string_eq_of_data
      simp [String.data_append]
    have hsplit2 : ospathSplit ("lazy_json" ++ "/" ++ key ++ ".json")
        = ("lazy_json", key ++ ".json") := by
      have h := ospathSplit_of_append hlazy hbase hlz_ne
      rw [hpath2] at h
      rw [h, hmk]
    have hcond2 : ((ospathSplit ("lazy_json" ++ "/" ++ key ++ ".json")).1.length = 0 ∨
        (ospathSplit ("lazy_json" ++ "/" ++ key ++ ".json")).1 = "lazy_json") := by
      rw [hsplit2]
      exact Or.inr rfl
    rw [get_sharded_path, if_pos hcond2, hsplit2]

/-- Witness for C7 with a concrete 40-hex-character digest function, hashmap
`node_attrs` and key `mypkg`. -/
theorem get_sharded_path_shards_witness :
    get_sharded_path (fun _ => "0123456789abcdef0123456789abcdef01234567")
        ("node_attrs" ++ "/" ++ "mypkg" ++ ".json") =
      "node_attrs" ++ "/" ++ String.mk ['0'] ++ "/" ++ String.mk ['1'] ++ "/"
        ++ String.mk ['2'] ++ "/" ++ String.mk ['3'] ++ "/" ++ String.mk ['4'] ++ "/"
        ++ ("mypkg" ++ ".json") ∧
    get_sharded_path (fun _ => "0123456789abcdef0123456789abcdef01234567")
        ("lazy_json" ++ "/" ++ "mypkg" ++ ".json") = "mypkg" ++ ".json" :=
  get_sharded_path_shards (fun _ => "0123456789abcdef0123456789abcdef01234567")
    "node_attrs" "mypkg" '0' '1' '2' '3' '4'
    "56789abcdef0123456789abcdef01234567".data
    (by decide) (by decide) (by decide) (by decide) (by decide)

/-- C8: outside an entered edit scope every mutator (`__setitem__`, `__delitem__`,
`clear`) fails and leaves the handle — in particular the in-memory value — unchanged;
inside an entered scope the same operations succeed: assignment stores the value,
deletion of a present key removes it, and clear empties the document. -/
theorem lazyjson_mutation_guard {V : Type} (s t : LJHandle V) (k : String) (v : V)
    (hout : s.in_context = false) (hin : t.in_context = true) :
    s.setitem k v = (s, false) ∧
    s.delitem k = (s, false) ∧
    s.clearData = (s, false) ∧
    ((t.setitem k v).2 = true ∧
      alookup (((t.setitem k v).1.data).getD []) k = some v) ∧
    (hexists ((t.loadStep.data).getD []) k = true →
      (t.delitem k).2 = true ∧
      alookup (((t.delitem k).1.data).getD []) k = none) ∧
    ((t.clearData).2 = true ∧ (t.clearData).1.data = some []) := by
  refine ⟨?_, ?_, ?_, ⟨?_, ?_⟩, ?_, ?_⟩
  · simp [LJHandle.setitem, hout]
  · simp [LJHandle.delitem, hout]
  · simp [LJHandle.clearData, hout]
  · simp [LJHandle.setitem, hin]
  · simp only [LJHandle.setitem, hin, if_true, Option.getD_some]
    rw [alookup_hset]
    simp
  · intro hex
    refine ⟨by simp [LJHandle.delitem, hin, hex], ?_⟩
    simp only [LJHandle.delitem, hin, if_true, hex, Option.getD_some]
    have hd : ((t.loadStep.data.getD []).filter (fun p => p.1 != k)) =
        hdel (t.loadStep.data.getD []) [k] := by
      unfold hdel
      congr 1
      funext p
      by_cases h : p.1 = k <;> simp [bne, h]
    rw [hd, alookup_hdel]
    simp
  · simp [LJHandle.clearData, hin]

/-- Witness for C8 on concrete handles. -/
theorem lazyjson_mutation_guard_witness :
    (LJHandle.setitem ⟨false, [("a", 1)], none⟩ "b" (2 : Nat)
        = (⟨false, [("a", 1)], none⟩, false)) ∧
    (LJHandle.delitem ⟨false, [("a", 1)], none⟩ "b"
        = (⟨false, [("a", 1)], none⟩, false)) ∧
    (LJHandle.clearData ⟨false, [("a", 1)], none⟩
        = (⟨false, [("a", 1)], none⟩, false)) ∧
    ((LJHandle.setitem ⟨true, [("a", 1)], none⟩ "b" 2).2 = true ∧
      alookup (((LJHandle.setitem ⟨true, [("a", 1)], none⟩ "b" 2).1.data).getD [])
        "b" = some 2) ∧
    (hexists ((LJHandle.loadStep ⟨true, [("a", 1)], none⟩).data.getD []) "b" = true →
      (LJHandle.delitem ⟨true, [("a", 1)], none⟩ "b").2 = true ∧
      alookup (((LJHandle.delitem ⟨true, [("a", 1)], none⟩ "b").1.data).getD [])
        "b" = none) ∧
    ((LJHandle.clearData ⟨true, [("a", 1)], none⟩).2 = true ∧
      (LJHandle.clearData ⟨true, [("a", 1)], none⟩).1.data = some []) :=
  lazyjson_mutation_guard ⟨false, [("a", 1)], none⟩ ⟨true, [("a", 1)], none⟩
    "b" 2 rfl rfl

theorem contains_eq_true_iff {l : List String} {a : String} :
    l.contains a = true ↔ a ∈ l :=
  ⟨List.mem_of_elem_eq_true, List.elem_eq_true_of_mem⟩

theorem alookup_setFold (primary : List (String × String)) (ks : List String) :
    ∀ (sec : List (String × String)) (k : String),
    alookup (ks.foldl (fun acc k =>
      match alookup primary k with
      | some h => hset acc k h
      | none => acc) sec) k =
    if ks.contains k ∧ (alookup primary k).isSome then alookup primary k
    else alookup sec k := by
  induction ks with
  | nil => intro sec k; simp
  | cons a ks ih =>
    intro sec k
    rw [List.foldl_cons, ih]
    by_cases hc : ks.contains k ∧ (alookup primary k).isSome
    · rw [if_pos hc, if_pos]
      refine ⟨contains_eq_true_iff.mpr ?_, hc.2⟩
      exact List.mem_cons_of_mem a (contains_eq_true_iff.mp hc.1)
    · rw [if_neg hc]
      by_cases hak : a = k
      · subst hak
        cases hpa : alookup primary a with
        | none =>
          rw [if_neg]
          intro hcon
          simp at hcon
        | some h =>
          rw [alookup_hset, if_pos rfl,
            if_pos ⟨by simp [List.contains_cons], by simp⟩]
      · have hres : ¬ ((a :: ks).contains k ∧ (alookup primary k).isSome) := by
          intro hcon
          apply hc
          refine ⟨?_, hcon.2⟩
          have hm := hcon.1
          have hm2 := contains_eq_true_iff.mp hm
          rcases List.mem_cons.mp hm2 with h | h
          · exact absurd h.symm hak
          · exact contains_eq_true_iff.mpr h
        rw [if_neg hres]
        cases hpa : alookup primary a with
        | none => rfl
        | some h =>
          rw [alookup_hset, if_neg hak]

theorem alookup_pushBatch (primary secOrig sec : List (String × String))
    (chunk : List String) (k : String) :
    alookup (pushBatch primary secOrig sec chunk) k =
    if chunk.contains k ∧ staleFor primary secOrig k = true then alookup primary k
    else alookup sec k := by
  unfold pushBatch
  rw [alookup_setFold]
  by_cases hs : staleFor primary secOrig k = true
  · have hprim : (alookup primary k).isSome := by
      unfold staleFor at hs
      cases hp : alookup primary k with
      | none => rw [hp] at hs; simp at hs
      | some h => simp
    by_cases hck : chunk.contains k
    · rw [if_pos, if_pos ⟨hck, hs⟩]
      refine ⟨?_, hprim⟩
      have hmem : k ∈ chunk.filter (fun x => staleFor primary secOrig x) := by
        rw [List.mem_filter]
        exact ⟨contains_eq_true_iff.mp hck, by simpa using hs⟩
      exact contains_eq_true_iff.mpr hmem
    · rw [if_neg, if_neg (fun hcon => hck hcon.1)]
      intro hcon
      have hm := (List.mem_filter.mp (contains_eq_true_iff.mp hcon.1)).1
      exact hck (contains_eq_true_iff.mpr hm)
  · rw [if_neg, if_neg (fun hcon => hs hcon.2)]
    intro hcon
    have hm := (List.mem_filter.mp (contains_eq_true_iff.mp hcon.1)).2
    exact hs (by simpa using hm)

theorem alookup_syncFold (primary secOrig : List (String × String))
    (chunks : List (List String)) :
    ∀ (base : List (String × String)) (k : String),
    alookup (chunks.foldl (fun acc chunk => pushBatch primary secOrig acc chunk) base) k =
    if (chunks.any (fun c => c.contains k)) = true ∧ staleFor primary secOrig k = true
    then alookup primary k
    else alookup base k := by
  induction chunks with
  | nil => intro base k; simp
  | cons c cs ih =>
    intro base k
    rw [List.foldl_cons, ih, alookup_pushBatch]
    by_cases hs : staleFor primary secOrig k = true
    · by_cases hcs : (cs.any (fun c => c.contains k)) = true
      · rw [if_pos ⟨hcs, hs⟩, if_pos ⟨by simp only [List.any_cons, Bool.or_eq_true]; right; exact hcs, hs⟩]
      · rw [if_neg (fun hcon => hcs hcon.1)]
        by_cases hck : c.contains k
        · rw [if_pos ⟨hck, hs⟩, if_pos ⟨by simp only [List.any_cons, Bool.or_eq_true]; left; exact hck, hs⟩]
        · rw [if_neg (fun hcon => hck hcon.1), if_neg]
          intro hcon
          have hm := hcon.1
          simp only [List.any_cons, Bool.or_eq_true] at hm
          rcases hm with h | h
          · exact hck h
          · exact hcs h
    · rw [if_neg (fun hcon => hs hcon.2), if_neg (fun hcon => hs hcon.2),
        if_neg (fun hcon => hs hcon.2)]

theorem chunksGo_flatten (n : Nat) (hn : 0 < n) :
    ∀ (fuel : Nat) (l : List String), l.length ≤ fuel →
      (chunksGo n fuel l).flatten = l := by
  intro fuel
  induction fuel with
  | zero =>
    intro l hl
    cases l with
    | nil => rfl
    | cons x xs => simp at hl
  | succ fuel ih =>
    intro l hl
    cases l with
    | nil => rfl
    | cons x xs =>
      rw [chunksGo, List.flatten_cons, ih]
      · exact List.take_append_drop n (x :: xs)
      · rw [List.length_drop]
        simp only [List.length_cons] at hl ⊢
        omega

theorem chunksOf_flatten (n : Nat) (hn : 0 < n) (l : List String) :
    (chunksOf n l).flatten = l :=
  chunksGo_flatten n hn l.length l (le_refl _)

/-! ## C1 — sync convergence -/

/-- C1: one run of `_sync_hashmap` leaves every secondary's `{key: hash}` map
extensionally identical to the primary's — keys present only on the secondary are
deleted, keys missing from the secondary are inserted, and keys with a differing hash
are overwritten with the primary's value. -/
theorem sync_converges (n : Nat) (primary : List (String × String))
    (secs : List (List (String × String))) (i : Nat) (hn : 0 < n)
    (hi : i < (syncHashmap n primary secs).length) (k : String) :
    alookup ((syncHashmap n primary secs).get ⟨i, hi⟩) k = alookup primary k := by
  have hlen : (syncHashmap n primary secs).length = secs.length := by
    simp [syncHashmap]
  have hi' : i < secs.length := hlen ▸ hi
  have hget : (syncHashmap n primary secs).get ⟨i, hi⟩ =
      syncSecondary primary (secs.get ⟨i, hi'⟩)
        (chunksOf n (allNodesToGet primary secs)) := by
    simp [syncHashmap]
  rw [hget]
  have hmem : secs.get ⟨i, hi'⟩ ∈ secs := List.get_mem secs i hi' 
  generalize hsec : secs.get ⟨i, hi'⟩ = sec at hmem
  unfold syncSecondary
  rw [alookup_syncFold, alookup_hdel]
  cases hp : alookup primary k with
  | some h =>
    by_cases hst : staleFor primary sec k = true
    · have hinflat : k ∈ (chunksOf n (allNodesToGet primary secs)).flatten := by
        rw [chunksOf_flatten n hn]
        refine List.mem_filter.mpr ⟨mem_keys_of_alookup_some _ _ _ hp, ?_⟩
        exact List.any_eq_true.mpr ⟨sec, hmem, hst⟩
      obtain ⟨c, hc, hkc⟩ := List.mem_flatten.mp hinflat
      have hany : ((chunksOf n (allNodesToGet primary secs)).any
          (fun c => c.contains k)) = true :=
        List.any_eq_true.mpr ⟨c, hc, contains_eq_true_iff.mpr hkc⟩
      rw [if_pos ⟨hany, hst⟩]
    · rw [if_neg (fun hcon => hst hcon.2)]
      have hsk : alookup sec k = some h := by
        unfold staleFor at hst
        rw [hp] at hst
        simp only [Bool.not_eq_true, Bool.not_eq_false] at hst
        simpa using hst
      have hnd : (delNodes primary sec).contains k = false := by
        rw [Bool.eq_false_iff]
        intro hcon
        have hm := List.mem_filter.mp (contains_eq_true_iff.mp hcon)
        have : hexists primary k = true := by simp [hexists, hp]
        rw [this] at hm
        simp at hm
      rw [hnd]
      simp [hsk, hp]
  | none =>
    have hst : ¬ (staleFor primary sec k = true) := by
      unfold staleFor
      rw [hp]
      simp
    rw [if_neg (fun hcon => hst hcon.2)]
    cases hsk : alookup sec k with
    | none => simp [hsk]
    | some v =>
      have hnd : (delNodes primary sec).contains k = true := by
        apply contains_eq_true_iff.mpr
        apply List.mem_filter.mpr
        refine ⟨mem_keys_of_alookup_some _ _ _ hsk, ?_⟩
        simp [hexists, hp]
      rw [hnd]
      simp

/-- Witness for C1: the spec's own example — primary `{a: h1, b: h2}`, secondary
`{b: hOLD, c: h3}`; after one sync the secondary holds exactly `{a: h1, b: h2}`. -/
theorem sync_converges_witness :
    alookup ((syncHashmap 2 [("a", "h1"), ("b", "h2")] [[("b", "hOLD"), ("c", "h3")]]).get
        ⟨0, by decide⟩) "a" = alookup [("a", "h1"), ("b", "h2")] "a" ∧
    alookup ((syncHashmap 2 [("a", "h1"), ("b", "h2")] [[("b", "hOLD"), ("c", "h3")]]).get
        ⟨0, by decide⟩) "b" = alookup [("a", "h1"), ("b", "h2")] "b" ∧
    alookup ((syncHashmap 2 [("a", "h1"), ("b", "h2")] [[("b", "hOLD"), ("c", "h3")]]).get
        ⟨0, by decide⟩) "c" = alookup [("a", "h1"), ("b", "h2")] "c" :=
  ⟨sync_converges 2 _ _ 0 (by decide) (by decide) "a",
   sync_converges 2 _ _ 0 (by decide) (by decide) "b",
   sync_converges 2 _ _ 0 (by decide) (by decide) "c"⟩

/-! ## C5 — batch structure of the fetch loop -/

theorem ceil_div_eq (L n : Nat) (hn : 0 < n) :
    (L + n - 1) / n = L / n + (if L % n = 0 then 0 else 1) := by
  rcases Nat.eq_zero_or_pos L with hL | hL
  · subst hL
    simp [Nat.div_eq_of_lt (by omega : n - 1 < n)]
  · have hmod : L % n < n := Nat.mod_lt L hn
    have hdm : n * (L / n) + L % n = L := Nat.div_add_mod L n
    by_cases hr : L % n = 0
    · rw [if_pos hr]
      have h1 : L + n - 1 = n * (L / n) + (n - 1) := by omega
      rw [h1, Nat.mul_add_div hn, Nat.div_eq_of_lt (show n - 1 < n by omega)]
    · rw [if_neg hr]
      have h1 : L + n - 1 = n * (L / n + 1) + (L % n - 1) := by
        rw [Nat.mul_add, Nat.mul_one]
        omega
      rw [h1, Nat.mul_add_div hn,
        Nat.div_eq_of_lt (show L % n - 1 < n by omega), Nat.add_zero]

theorem chunksGo_lengths (n : Nat) (hn : 0 < n) :
    ∀ (fuel : Nat) (l : List String), l.length ≤ fuel →
      (chunksGo n fuel l).map List.length =
        List.replicate (l.length / n) n ++
          (if l.length % n = 0 then [] else [l.length % n]) := by
  intro fuel
  induction fuel with
  | zero =>
    intro l hl
    cases l with
    | nil =>
      rw [show chunksGo n 0 ([] : List String) = [] from rfl]
      simp
    | cons x xs => simp at hl
  | succ fuel ih =>
    intro l hl
    cases l with
    | nil =>
      rw [show chunksGo n (fuel + 1) ([] : List String) = [] from rfl]
      simp
    | cons x xs =>
      have hlen2 : ((x :: xs).drop n).length ≤ fuel := by
        rw [List.length_drop]
        simp only [List.length_cons] at hl ⊢
        omega
      rw [chunksGo, List.map_cons, ih _ hlen2, List.length_take, List.length_drop]
      by_cases hcase : (x :: xs).length ≤ n
      · have hdrop0 : (x :: xs).length - n = 0 := by omega
        have hmin : min n (x :: xs).length = (x :: xs).length := by omega
        rw [hdrop0, hmin]
        by_cases heq : (x :: xs).length = n
        · rw [heq, Nat.div_self hn, Nat.mod_self]
          simp
        · have hlt : (x :: xs).length < n := by omega
          rw [Nat.div_eq_of_lt hlt, Nat.mod_eq_of_lt hlt]
          have hne : ¬ (x :: xs).length = 0 := by simp
          simp [hne]
      · push_neg at hcase
        have hmin : min n (x :: xs).length = n := by omega
        have hnle : n ≤ (x :: xs).length := le_of_lt hcase
        rw [hmin, Nat.div_eq_sub_div hn hnle, ← Nat.mod_eq_sub_mod hnle,
          List.replicate_succ]
        simp

theorem chunksGo_sizes (n : Nat) (hn : 0 < n) :
    ∀ (fuel : Nat) (l : List String) (c : List String),
      c ∈ chunksGo n fuel l → c ≠ [] ∧ c.length ≤ n := by
  intro fuel
  induction fuel with
  | zero =>
    intro l c hc
    cases l with
    | nil => simp [chunksGo] at hc
    | cons x xs => simp [chunksGo] at hc
  | succ fuel ih =>
    intro l c hc
    cases l with
    | nil => simp [chunksGo] at hc
    | cons x xs =>
      rw [chunksGo] at hc
      rcases List.mem_cons.mp hc with h | h
      · subst h
        constructor
        · intro hnil
          have := congrArg List.length hnil
          rw [List.length_take] at this
          simp only [List.length_cons, List.length_nil] at this
          omega
        · rw [List.length_take]
          omega
      · exact ih _ _ h

theorem chunksOf_lengths (n : Nat) (hn : 0 < n) (l : List String) :
    (chunksOf n l).map List.length =
      List.replicate (l.length / n) n ++
        (if l.length % n = 0 then [] else [l.length % n]) :=
  chunksGo_lengths n hn l.length l (le_refl _)

theorem chunksOf_sizes (n : Nat) (hn : 0 < n) (l : List String) (c : List String)
    (hc : c ∈ chunksOf n l) : c ≠ [] ∧ c.length ≤ n :=
  chunksGo_sizes n hn l.length l c hc

/-- C5: with batch size `n` the fetch loop issues `ceil(len/n)` primary multi-gets;
every batch is nonempty with at most `n` keys; the batch sizes are `n, …, n,
remainder`; and each secondary receives per batch exactly the sub-batch that is stale
for it according to its own pre-read hash map. -/
theorem sync_batching (n : Nat) (primary : List (String × String))
    (secs : List (List (String × String))) (hn : 0 < n) :
    (chunksOf n (allNodesToGet primary secs)).length
        = ((allNodesToGet primary secs).length + n - 1) / n ∧
    (∀ c ∈ chunksOf n (allNodesToGet primary secs), c ≠ [] ∧ c.length ≤ n) ∧
    ((chunksOf n (allNodesToGet primary secs)).map List.length =
      List.replicate ((allNodesToGet primary secs).length / n) n ++
        (if (allNodesToGet primary secs).length % n = 0 then []
         else [(allNodesToGet primary secs).length % n])) ∧
    (∀ secOrig sec chunk k, chunk ∈ chunksOf n (allNodesToGet primary secs) →
      alookup (pushBatch primary secOrig sec chunk) k =
        if chunk.contains k ∧ staleFor primary secOrig k = true then alookup primary k
        else alookup sec k) := by
  have hlengths := chunksOf_lengths n hn (allNodesToGet primary secs)
  refine ⟨?_, ?_, hlengths, ?_⟩
  · have hmap : (chunksOf n (allNodesToGet primary secs)).length
        = ((chunksOf n (allNodesToGet primary secs)).map List.length).length := by
      rw [List.length_map]
    rw [hmap, hlengths, List.length_append, List.length_replicate,
      ceil_div_eq _ n hn]
    by_cases hr : (allNodesToGet primary secs).length % n = 0 <;> simp [hr]
  · intro c hc
    exact chunksOf_sizes n hn _ c hc
  · intro secOrig sec chunk k hchunk
    exact alookup_pushBatch primary secOrig sec chunk k

/-- Witness for C5: batch size 2 with 5 stale keys gives 3 multi-gets of sizes
2, 2, 1. -/
theorem sync_batching_witness :
    ((chunksOf 2 (allNodesToGet
        [("a", "1"), ("b", "2"), ("c", "3"), ("d", "4"), ("e", "5")] [[]])).map
      List.length = [2, 2, 1]) ∧
    (chunksOf 2 (allNodesToGet
        [("a", "1"), ("b", "2"), ("c", "3"), ("d", "4"), ("e", "5")] [[]])).length
      = ((allNodesToGet
        [("a", "1"), ("b", "2"), ("c", "3"), ("d", "4"), ("e", "5")] [[]]).length
          + 2 - 1) / 2 ∧
    (∀ c ∈ chunksOf 2 (allNodesToGet
        [("a", "1"), ("b", "2"), ("c", "3"), ("d", "4"), ("e", "5")] [[]]),
      c ≠ [] ∧ c.length ≤ 2) :=
  ⟨by decide,
   (sync_batching 2 [("a", "1"), ("b", "2"), ("c", "3"), ("d", "4"), ("e", "5")] [[]]
      (by decide)).1,
   (sync_batching 2 [("a", "1"), ("b", "2"), ("c", "3"), ("d", "4"), ("e", "5")] [[]]
      (by decide)).2.1⟩

/-- C4 counterexample: "at most one transaction session is open at a time over every
pattern of nested scope entries and exits" fails. In
`with tc(): (with tc(): pass); (with tc(): pass)` the first nested exit's `finally`
clears the class-level `_session`, so the second nested entry starts a second session
while the outer one is still open: two sessions are simultaneously open. -/
theorem transaction_scope_double_session :
    maxOpenSessions
      (execScopes (.scope (.seq (.scope .skip) (.scope .skip))) mongoClean).2.2 = 2 ∧
    ¬ (∀ prog : ScopeProg,
        maxOpenSessions (execScopes prog mongoClean).2.2 ≤ 1) := by
  constructor
  · decide
  · intro hall
    have h := hall (.scope (.seq (.scope .skip) (.scope .skip)))
    revert h
    decide

/-- C4 amended: on every scope exit, normal or error, the process-wide session handle
is cleared in a final step; entering a scope while the handle is set reuses that
session (the body runs in the unchanged state and no new session is started); entering
with the handle clear starts exactly one fresh session. The original claim's "at most
one open session at a time" holds only until a nested scope exit clears the handle —
a later sibling entry inside the still-open outer scope starts a second session. -/
theorem transaction_scope_reuse_and_clear :
    (∀ (p : ScopeProg) (s : MongoSessions),
      ((execScopes (.scope p) s).1).handle = none) ∧
    (∀ (p : ScopeProg) (s : MongoSessions), s.handle.isSome = true →
      (execScopes (.scope p) s).1
        = { (execScopes p s).1 with handle := none } ∧
      ((execScopes (.scope p) s).1).next = ((execScopes p s).1).next) ∧
    (∀ (p : ScopeProg) (s : MongoSessions), s.handle = none →
      (execScopes (.scope p) s).2.2.head?
        = some ⟨some s.next, s.next :: s.opened, s.next + 1⟩) := by
  refine ⟨?_, ?_, ?_⟩
  · intro p s
    cases hh : s.handle with
    | some x =>
      rcases hexec : execScopes p s with ⟨s1, ok, t⟩
      simp [execScopes, hh, hexec]
    | none =>
      rcases hexec : execScopes p
          { handle := some s.next, opened := s.next :: s.opened, next := s.next + 1 }
        with ⟨s1, ok, t⟩
      simp [execScopes, hh, hexec]
  · intro p s hh
    rcases hs : s.handle with _ | x
    · rw [hs] at hh; simp at hh
    · rcases hexec : execScopes p s with ⟨s1, ok, t⟩
      constructor
      · simp [execScopes, hs, hexec]
      · simp [execScopes, hs, hexec]
  · intro p s hh
    rcases hexec : execScopes p
        { handle := some s.next, opened := s.next :: s.opened, next := s.next + 1 }
      with ⟨s1, ok, t⟩
    simp [execScopes, hh, hexec]

/-- Witness for the amended C4 theorem on concrete programs and states. -/
theorem transaction_scope_reuse_and_clear_witness :
    ((execScopes (.scope .skip) mongoClean).1).handle = none ∧
    ((execScopes (.scope .err) ⟨some 7, [7], 8⟩).1
        = { (execScopes .err ⟨some 7, [7], 8⟩).1 with handle := none } ∧
      ((execScopes (.scope .err) ⟨some 7, [7], 8⟩).1).next
        = ((execScopes .err ⟨some 7, [7], 8⟩).1).next) ∧
    (execScopes (.scope .skip) mongoClean).2.2.head?
        = some ⟨some 0, [0], 1⟩ :=
  ⟨transaction_scope_reuse_and_clear.1 .skip mongoClean,
   transaction_scope_reuse_and_clear.2.1 .err ⟨some 7, [7], 8⟩ rfl,
   transaction_scope_reuse_and_clear.2.2 .skip mongoClean rfl⟩

theorem hasJsonSuffix_decomp {f : String} (h : hasJsonSuffix f = true) :
    f.data = f.data.take (f.data.length - 5) ++ ".json".data := by
  unfold hasJsonSuffix at h
  rw [List.isSuffixOf_iff_suffix] at h
  obtain ⟨t, ht⟩ := h
  have hlen : f.data.length = t.length + 5 := by
    rw [← ht, List.length_append]
    rfl
  have htake : f.data.take (f.data.length - 5) = t := by
    rw [← ht]
    have h5 : (".json" : String).data.length = 5 := by decide
    have hlen2 : (t ++ ".json".data).length - 5 = t.length := by
      rw [List.length_append]
      omega
    rw [hlen2, List.take_left]
  rw [htake, ht]

theorem strip_mem_hkeys (fs : List (String × String)) (f : String)
    (hf : f ∈ fs.map Prod.fst) (hsfx : hasJsonSuffix f = true)
    (hres : ¬ f ∈ reservedRootFiles) :
    String.mk (f.data.take (f.data.length - 5)) ∈ fileHkeysLazyJson fs := by
  unfold fileHkeysLazyJson
  apply List.mem_map.mpr
  refine ⟨f, ?_, rfl⟩
  apply List.mem_filter.mpr
  refine ⟨?_, by simpa [contains_eq_true_iff] using hres⟩
  unfold globJson
  exact List.mem_filter.mpr ⟨hf, hsfx⟩

theorem reserved_not_mem_hkeys (fs : List (String × String)) :
    ¬ "ranked_hubs_authorities" ∈ fileHkeysLazyJson fs ∧
    ¬ "all_feedstocks" ∈ fileHkeysLazyJson fs := by
  constructor <;>
  · intro hmem
    unfold fileHkeysLazyJson at hmem
    obtain ⟨f, hfmem, hstrip⟩ := List.mem_map.mp hmem
    have hfil := List.mem_filter.mp hfmem
    have hglob := List.mem_filter.mp hfil.1
    have hsfx : hasJsonSuffix f = true := by simpa using hglob.2
    have hdecomp := hasJsonSuffix_decomp hsfx
    have hres : ¬ f ∈ reservedRootFiles := by
      have := hfil.2
      simp only [Bool.not_eq_true'] at this
      intro hcon
      rw [contains_eq_true_iff.mpr hcon] at this
      exact Bool.false_ne_true this.symm
    apply hres
    have hfeq : f = String.mk (f.data.take (f.data.length - 5)) ++ ".json" := by
      apply string_eq_of_data
      rw [String.data_append]
      exact hdecomp
    rw [hfeq, hstrip]
    decide

/-- C9: the catch-all listing `hkeys("lazy_json")` is the stripped top-level `*.json`
names but never contains the two reserved keys, even when their files exist; every
other `*.json` file is listed; `hgetall` covers exactly the listed keys, so the sync
engine never deletes or pushes the reserved keys; `hget`/`hexists` on a reserved key
still succeed. -/
theorem lazy_json_reserved_documents (sha256 : String → String)
    (fs fs2 : List (String × String)) (c : String)
    (hranked : alookup fs "ranked_hubs_authorities.json" = some c) :
    (¬ "ranked_hubs_authorities" ∈ fileHkeysLazyJson fs ∧
     ¬ "all_feedstocks" ∈ fileHkeysLazyJson fs) ∧
    (∀ f, f ∈ fs.map Prod.fst → hasJsonSuffix f = true → ¬ f ∈ reservedRootFiles →
      String.mk (f.data.take (f.data.length - 5)) ∈ fileHkeysLazyJson fs) ∧
    (fileHgetallLazyJson sha256 fs).map Prod.fst = fileHkeysLazyJson fs ∧
    (fileHexistsLazyJson fs "ranked_hubs_authorities" = true ∧
     fileHgetLazyJson fs "ranked_hubs_authorities" = some c) ∧
    (¬ "ranked_hubs_authorities" ∈ delNodes (fileHgetallLazyJson sha256 fs)
        (fileHgetallLazyJson sha256 fs2) ∧
     staleFor (fileHgetallLazyJson sha256 fs) (fileHgetallLazyJson sha256 fs2)
        "ranked_hubs_authorities" = false ∧
     ¬ "all_feedstocks" ∈ delNodes (fileHgetallLazyJson sha256 fs)
        (fileHgetallLazyJson sha256 fs2) ∧
     staleFor (fileHgetallLazyJson sha256 fs) (fileHgetallLazyJson sha256 fs2)
        "all_feedstocks" = false) := by
  have hmapfst : ∀ (g : List (String × String)),
      (fileHgetallLazyJson sha256 g).map Prod.fst = fileHkeysLazyJson g := by
    intro g
    unfold fileHgetallLazyJson
    rw [List.map_map]
    exact List.map_id _
  have hstale : ∀ (g g2 : List (String × String)) (r : String),
      ¬ r ∈ fileHkeysLazyJson g →
      staleFor (fileHgetallLazyJson sha256 g) (fileHgetallLazyJson sha256 g2) r
        = false := by
    intro g g2 r hr
    unfold staleFor
    have : alookup (fileHgetallLazyJson sha256 g) r = none := by
      apply alookup_none_of_not_mem_keys
      rw [hmapfst g]
      exact hr
    rw [this]
  have hdel : ∀ (g g2 : List (String × String)) (r : String),
      ¬ r ∈ fileHkeysLazyJson g2 →
      ¬ r ∈ delNodes (fileHgetallLazyJson sha256 g) (fileHgetallLazyJson sha256 g2) := by
    intro g g2 r hr hcon
    unfold delNodes at hcon
    have := (List.mem_filter.mp hcon).1
    rw [hmapfst g2] at this
    exact hr this
  refine ⟨reserved_not_mem_hkeys fs, strip_mem_hkeys fs, hmapfst fs, ⟨?_, ?_⟩,
    hdel fs fs2 _ (reserved_not_mem_hkeys fs2).1,
    hstale fs fs2 _ (reserved_not_mem_hkeys fs).1,
    hdel fs fs2 _ (reserved_not_mem_hkeys fs2).2,
    hstale fs fs2 _ (reserved_not_mem_hkeys fs).2⟩
  · unfold fileHexistsLazyJson
    apply contains_eq_true_iff.mpr
    have : ("ranked_hubs_authorities" ++ ".json" : String)
        = "ranked_hubs_authorities.json" := by decide
    rw [this]
    exact mem_keys_of_alookup_some _ _ _ hranked
  · unfold fileHgetLazyJson
    have : ("ranked_hubs_authorities" ++ ".json" : String)
        = "ranked_hubs_authorities.json" := by decide
    rw [this]
    exact hranked

/-- Witness for C9 on a concrete root directory holding both reserved files, one
ordinary document and one non-JSON file. -/
theorem lazy_json_reserved_documents_witness :
    (¬ "ranked_hubs_authorities" ∈ fileHkeysLazyJson
        [("graph.json", "{}"), ("ranked_hubs_authorities.json", "[1]"),
         ("all_feedstocks.json", "[2]"), ("notes.txt", "x")] ∧
     ¬ "all_feedstocks" ∈ fileHkeysLazyJson
        [("graph.json", "{}"), ("ranked_hubs_authorities.json", "[1]"),
         ("all_feedstocks.json", "[2]"), ("notes.txt", "x")]) ∧
    "graph" ∈ fileHkeysLazyJson
        [("graph.json", "{}"), ("ranked_hubs_authorities.json", "[1]"),
         ("all_feedstocks.json", "[2]"), ("notes.txt", "x")] ∧
    fileHexistsLazyJson
        [("graph.json", "{}"), ("ranked_hubs_authorities.json", "[1]"),
         ("all_feedstocks.json", "[2]"), ("notes.txt", "x")]
        "ranked_hubs_authorities" = true ∧
    fileHgetLazyJson
        [("graph.json", "{}"), ("ranked_hubs_authorities.json", "[1]"),
         ("all_feedstocks.json", "[2]"), ("notes.txt", "x")]
        "ranked_hubs_authorities" = some "[1]" := by
  have h := lazy_json_reserved_documents (fun s => s)
    [("graph.json", "{}"), ("ranked_hubs_authorities.json", "[1]"),
     ("all_feedstocks.json", "[2]"), ("notes.txt", "x")]
    [] "[1]" (by decide)
  refine ⟨h.1, ?_, h.2.2.2.1.1, h.2.2.2.1.2⟩
  have hg := h.2.1 "graph.json" (by decide) (by decide) (by decide)
  simpa using hg

theorem strListOfArr_strsToArr (es : List String) :
    strListOfArr (strsToArr es) = some es := by
  induction es with
  | nil => rfl
  | cons s ss ih =>
    rw [strsToArr, strListOfArr, ih]
    rfl

/-- C10: deserialization dispatches on marker-key presence alone. Any parsed object
whose `"__lazy_json__"` field is a string decodes to a lazy-document handle bound to
that identifier, all other fields discarded; any parsed object without that marker but
containing `"__set__"` — whatever its value, `false` included — decodes to the set of
its `"elements"` field and fails when `"elements"` is absent; hence an object
containing either marker key never decodes as an ordinary mapping. -/
theorem object_hook_dispatch :
    (∀ (fs : JObj) (s : String), lookupF fs "__lazy_json__" = some (.str s) →
      object_hook fs = some (.lazy s)) ∧
    (∀ (fs : JObj) (w : JVal) (es : List String),
      lookupF fs "__lazy_json__" = none → lookupF fs "__set__" = some w →
      (lookupF fs "elements" = some (.arr (strsToArr es)) →
        object_hook fs = some (.jset es)) ∧
      (lookupF fs "elements" = none → object_hook fs = none)) ∧
    (∀ fs : JObj, (lookupF fs "__lazy_json__").isSome = true ∨
        (lookupF fs "__set__").isSome = true →
      ∀ gs : JObj, ¬ object_hook fs = some (.obj gs)) := by
  refine ⟨?_, ?_, ?_⟩
  · intro fs s hl
    unfold object_hook
    rw [hl]
  · intro fs w es hl hs
    constructor
    · intro he
      unfold object_hook
      rw [hl, hs, he]
      show Option.map JVal.jset (strListOfArr (strsToArr es)) = some (.jset es)
      rw [strListOfArr_strsToArr]
      rfl
    · intro he
      unfold object_hook
      rw [hl, hs, he]
  · intro fs hmark gs hcon
    unfold object_hook at hcon
    rcases hl : lookupF fs "__lazy_json__" with _ | v
    · rw [hl] at hcon
      rcases hs : lookupF fs "__set__" with _ | w
      · rcases hmark with hm | hm
        · rw [hl] at hm; simp at hm
        · rw [hs] at hm; simp at hm
      · rw [hs] at hcon
        rcases he : lookupF fs "elements" with _ | e
        · rw [he] at hcon; simp at hcon
        · rw [he] at hcon
          cases e with
          | arr xs =>
            have hcon2 : Option.map JVal.jset (strListOfArr xs)
                = some (.obj gs) := hcon
            rcases hsl : strListOfArr xs with _ | l
            · rw [hsl] at hcon2; simp at hcon2
            · rw [hsl] at hcon2; simp at hcon2
          | null => simp at hcon
          | bool b => simp at hcon
          | num n => simp at hcon
          | str s2 => simp at hcon
          | obj fs2 => simp at hcon
          | lazy f2 => simp at hcon
          | jset es2 => simp at hcon
    · rw [hl] at hcon
      cases v with
      | str s2 => simp at hcon
      | null => simp at hcon
      | bool b => simp at hcon
      | num n => simp at hcon
      | arr xs => simp at hcon
      | obj fs2 => simp at hcon
      | lazy f2 => simp at hcon
      | jset es2 => simp at hcon

/-- Witness for C10: a lazy marker with extra fields; a set marker whose value is
`false` with elements present, and one with elements absent; both markers never decode
to a plain object. -/
theorem object_hook_dispatch_witness :
    object_hook (.cons "__lazy_json__" (.str "pr_json/77.json")
        (.cons "other" (.num 3) .nil)) = some (.lazy "pr_json/77.json") ∧
    object_hook (.cons "__set__" (.bool false)
        (.cons "elements" (.arr (strsToArr ["a", "b"])) .nil)) = some (.jset ["a", "b"]) ∧
    object_hook (.cons "__set__" (.bool false) .nil) = none ∧
    ¬ object_hook (.cons "__set__" (.bool false)
        (.cons "x" (.num 1) .nil)) = some (.obj (.cons "__set__" (.bool false)
        (.cons "x" (.num 1) .nil))) :=
  ⟨object_hook_dispatch.1 (.cons "__lazy_json__" (.str "pr_json/77.json")
      (.cons "other" (.num 3) .nil)) "pr_json/77.json" (by decide),
   (object_hook_dispatch.2.1 (.cons "__set__" (.bool false)
      (.cons "elements" (.arr (strsToArr ["a", "b"])) .nil)) (.bool false) ["a", "b"]
      (by decide) (by decide)).1 (by decide),
   (object_hook_dispatch.2.1 (.cons "__set__" (.bool false) .nil) (.bool false) []
      (by decide) (by decide)).2 (by decide),
   object_hook_dispatch.2.2 (.cons "__set__" (.bool false) (.cons "x" (.num 1) .nil))
      (Or.inr (by decide)) (.cons "__set__" (.bool false) (.cons "x" (.num 1) .nil))⟩

/-- C2: if the re-serialized value's hash equals the baseline and force is not set,
no write occurs anywhere and the state is untouched; if the hash differs or force is
set, exactly one write goes to the file cache and exactly one to every configured
backend other than the file backend, nothing else is written, and the baseline hash
becomes the new hash (the value itself is unchanged). -/
theorem ljdump_writes (sha256 : String → String) (backends : List String)
    (force : Bool) (st : LJDoc) (hnd : backends.Nodup) :
    (sha256 (dumps st.data) = st.hash_at_load ∧ force = false →
      ljdump sha256 backends force st = (st, [])) ∧
    (sha256 (dumps st.data) ≠ st.hash_at_load ∨ force = true →
      ((ljdump sha256 backends force st).2.count "file" = 1 ∧
       (∀ b ∈ backends, b ≠ "file" →
          (ljdump sha256 backends force st).2.count b = 1) ∧
       (∀ w ∈ (ljdump sha256 backends force st).2,
          w = "file" ∨ (w ∈ backends ∧ w ≠ "file")) ∧
       (ljdump sha256 backends force st).1.hash_at_load = sha256 (dumps st.data) ∧
       (ljdump sha256 backends force st).1.data = st.data)) := by
  constructor
  · intro ⟨heq, hforce⟩
    unfold ljdump
    rw [if_neg]
    push_neg
    exact ⟨heq, by simp [hforce]⟩
  · intro hcond
    have hrw : ljdump sha256 backends force st =
        ({ data := st.data, hash_at_load := sha256 (dumps st.data) },
         "file" :: backends.filter (fun b => b != "file")) := by
      unfold ljdump
      rw [if_pos hcond]
    rw [hrw]
    refine ⟨?_, ?_, ?_, rfl, rfl⟩
    · have hzero : (backends.filter (fun b => b != "file")).count "file" = 0 := by
        apply List.count_eq_zero.mpr
        intro hmem
        have := (List.mem_filter.mp hmem).2
        simp at this
      rw [List.count_cons, hzero]
      simp
    · intro b hb hbf
      have hfil : ((backends.filter (fun x => x != "file")).count b)
          = backends.count b := List.count_filter (by simpa using hbf)
      have hcnt := List.count_eq_one_of_mem hnd hb
      rw [List.count_cons, hfil, hcnt]
      have hif : (("file" : String) == b) = false := by
        simp only [beq_eq_false_iff_ne, ne_eq]
        exact fun hcon => hbf hcon.symm
      simp [hif]
    · intro w hw
      rcases List.mem_cons.mp hw with h | h
      · exact Or.inl h
      · have hm := List.mem_filter.mp h
        exact Or.inr ⟨hm.1, by simpa using hm.2⟩

/-- Witness for C2: an unchanged document writes nothing; a changed document writes
the file cache once and the one non-file backend once. -/
theorem ljdump_writes_witness :
    (ljdump (fun _ => "h0") ["file", "mongodb"] false ⟨.null, "h0"⟩
        = (⟨.null, "h0"⟩, [])) ∧
    ((ljdump (fun _ => "h1") ["file", "mongodb"] false ⟨.null, "h0"⟩).2.count "file"
        = 1 ∧
     (ljdump (fun _ => "h1") ["file", "mongodb"] false ⟨.null, "h0"⟩).2.count "mongodb"
        = 1 ∧
     (ljdump (fun _ => "h1") ["file", "mongodb"] false ⟨.null, "h0"⟩).1.hash_at_load
        = "h1") := by
  have h1 := (ljdump_writes (fun _ => "h0") ["file", "mongodb"] false ⟨.null, "h0"⟩
    (by decide)).1 ⟨rfl, rfl⟩
  have h2 := (ljdump_writes (fun _ => "h1") ["file", "mongodb"] false ⟨.null, "h0"⟩
    (by decide)).2 (Or.inl (by decide))
  exact ⟨h1, h2.1, h2.2.1 "mongodb" (by decide) (by decide), h2.2.2.2.1⟩

theorem band_split {a b : Bool} (h : (a && b) = true) : a = true ∧ b = true := by
  simp at h
  exact h

theorem strLe_of_strLt {a b : String} (h : strLt a b = true) : strLe a b = true := by
  unfold strLe
  rw [h]
  rfl

theorem sortStrings_sorted_id : ∀ l : List String, chainLt l = true → sortStrings l = l
  | [], _ => rfl
  | [x], _ => rfl
  | x :: y :: rest, h => by
    have hxy : strLt x y = true := by
      rw [chainLt] at h
      exact (band_split h).1
    have htl : chainLt (y :: rest) = true := by
      rw [chainLt] at h
      exact (band_split h).2
    rw [sortStrings, sortStrings_sorted_id (y :: rest) htl, insertSorted,
      if_pos (strLe_of_strLt hxy)]

theorem sortFields_sorted_id : ∀ fs : JObj, chainLt (keysF fs) = true → sortFields fs = fs
  | .nil, _ => rfl
  | .cons _ _ .nil, _ => rfl
  | .cons k v (.cons k2 v2 tl), h => by
    have hk : strLt k k2 = true := by
      rw [keysF, keysF, chainLt] at h
      exact (band_split h).1
    have htl : chainLt (keysF (JObj.cons k2 v2 tl)) = true := by
      rw [keysF, keysF, chainLt] at h
      rw [keysF]
      exact (band_split h).2
    rw [sortFields, sortFields_sorted_id (.cons k2 v2 tl) htl, insertFieldSorted,
      if_pos (strLe_of_strLt hk)]

mutual
theorem canonV_id (v : JVal) (h : canonicalV v = true) : canonV v = v := by
  cases v with
  | null => rfl
  | bool b => rfl
  | num n => rfl
  | str s => rfl
  | lazy f => rfl
  | arr xs =>
    rw [canonV, canonA_id xs (by rw [canonicalV] at h; exact h)]
  | obj fs =>
    rw [canonicalV] at h
    have h1 : canonicalF fs = true := by
      have := (band_split (band_split (band_split h).1).1).1
      exact this
    have h2 : chainLt (keysF fs) = true := by
      have := (band_split (band_split (band_split h).1).1).2
      exact this
    rw [canonV, canonF_id fs h1, sortFields_sorted_id fs h2]
  | jset es =>
    rw [canonicalV] at h
    rw [canonV, sortStrings_sorted_id es (band_split h).2]
theorem canonA_id (xs : JArr) (h : canonicalA xs = true) : canonA xs = xs := by
  cases xs with
  | nil => rfl
  | cons x tl =>
    rw [canonicalA] at h
    rw [canonA, canonV_id x (band_split h).1,
      canonA_id tl (band_split h).2]
theorem canonF_id (fs : JObj) (h : canonicalF fs = true) : canonF fs = fs := by
  cases fs with
  | nil => rfl
  | cons k v tl =>
    rw [canonicalF] at h
    rw [canonF, canonV_id v (band_split (band_split h).1).2,
      canonF_id tl (band_split h).2]
end

theorem natDigitsGo_eq :
    ∀ (fuel n : Nat) (acc : List Char), n ≤ fuel →
      natDigitsGo fuel n acc = digitsRec n ++ acc := by
  intro fuel
  induction fuel with
  | zero =>
    intro n acc h
    have hn : n = 0 := by omega
    subst hn
    rw [digitsRec]
    rfl
  | succ f ih =>
    intro n acc h
    cases n with
    | zero =>
      rw [digitsRec]
      rfl
    | succ m =>
      rw [natDigitsGo, ih _ _ (by
        have : (m + 1) / 10 < m + 1 := Nat.div_lt_self (by omega) (by omega)
        omega)]
      conv_rhs => rw [digitsRec]
      rw [dif_neg (by omega), List.append_assoc]
      rfl

theorem natDigits_eq (n : Nat) (h : 0 < n) : natDigits n = digitsRec n := by
  unfold natDigits
  rw [if_neg (by omega), natDigitsGo_eq n n [] (le_refl _), List.append_nil]

theorem digitChar_isDigit (d : Nat) (h : d < 10) : (digitChar d).isDigit = true := by
  interval_cases d <;> decide

theorem digitVal_digitChar (d : Nat) (h : d < 10) : digitVal (digitChar d) = d := by
  interval_cases d <;> decide

theorem digitsRec_all_digit (n : Nat) : ∀ c ∈ digitsRec n, c.isDigit = true := by
  induction n using Nat.strong_induction_on with
  | _ n ih =>
    intro c hc
    by_cases h0 : n = 0
    · subst h0
      rw [digitsRec] at hc
      simp at hc
    · rw [digitsRec, dif_neg h0] at hc
      rcases List.mem_append.mp hc with hmem | hmem
      · exact ih (n / 10) (Nat.div_lt_self (Nat.pos_of_ne_zero h0) (by omega)) c hmem
      · have hceq : c = digitChar (n % 10) := by simpa using hmem
        rw [hceq]
        exact digitChar_isDigit _ (Nat.mod_lt n (by omega))

theorem digitsRec_ne_nil (n : Nat) (h : 0 < n) : digitsRec n ≠ [] := by
  rw [digitsRec, dif_neg (by omega)]
  simp

theorem parseDigits_append :
    ∀ (ds : List Char), (∀ c ∈ ds, c.isDigit = true) →
      ∀ (rest : List Char) (a : Nat),
        parseDigits (ds ++ rest) a = parseDigits rest (valAcc a ds) := by
  intro ds
  induction ds with
  | nil => intro _ rest a; rfl
  | cons c cs ih =>
    intro hds rest a
    rw [List.cons_append, parseDigits, if_pos (hds c (by simp))]
    exact ih (fun x hx => hds x (by simp [hx])) rest _

theorem parseDigits_stop (rest : List Char) (a : Nat) (h : headNonDigit rest = true) :
    parseDigits rest a = (a, rest) := by
  cases rest with
  | nil => rfl
  | cons c cs =>
    rw [parseDigits, if_neg]
    rw [headNonDigit] at h
    simp at h
    simp [h]

theorem valAcc_cons (a : Nat) (c : Char) (ds : List Char) :
    valAcc a (c :: ds) = valAcc (a * 10 + digitVal c) ds := rfl

theorem valAcc_append_one (a : Nat) (ds : List Char) (c : Char) :
    valAcc a (ds ++ [c]) = (valAcc a ds) * 10 + digitVal c := by
  unfold valAcc
  rw [List.foldl_append]
  rfl

theorem valAcc_digitsRec :
    ∀ (n a : Nat), valAcc a (digitsRec n) = a * 10 ^ (digitsRec n).length + n := by
  intro n
  induction n using Nat.strong_induction_on with
  | _ n ih =>
    intro a
    by_cases h0 : n = 0
    · subst h0
      rw [digitsRec]
      simp [valAcc]
    · have hdiv : n / 10 < n := Nat.div_lt_self (Nat.pos_of_ne_zero h0) (by omega)
      conv_lhs => rw [digitsRec, dif_neg h0]
      conv_rhs => rw [digitsRec, dif_neg h0]
      rw [valAcc_append_one, ih (n / 10) hdiv a,
        digitVal_digitChar _ (Nat.mod_lt n (by omega)), List.length_append,
        List.length_singleton, pow_succ]
      have hmod := Nat.div_add_mod n 10
      set L := (digitsRec (n / 10)).length
      calc (a * 10 ^ L + n / 10) * 10 + n % 10
          = a * (10 ^ L * 10) + (10 * (n / 10) + n % 10) := by ring
        _ = a * (10 ^ L * 10) + n := by rw [hmod]

theorem parse_digits_run (n : Nat) (hn : 0 < n) :
    ∃ c ds, digitsRec n = c :: ds ∧ c.isDigit = true ∧
      ∀ (X : List Char), headNonDigit X = true →
        parseDigits (ds ++ X) (digitVal c) = (n, X) := by
  obtain ⟨c, ds, hcd⟩ := List.exists_cons_of_ne_nil (digitsRec_ne_nil n hn)
  refine ⟨c, ds, hcd, digitsRec_all_digit n c (by rw [hcd]; simp), ?_⟩
  intro X hX
  have hall : ∀ x ∈ ds, x.isDigit = true := by
    intro x hx
    exact digitsRec_all_digit n x (by rw [hcd]; simp [hx])
  rw [parseDigits_append ds hall X _, parseDigits_stop X _ hX]
  have hv : valAcc (digitVal c) ds = n := by
    have h0 : valAcc 0 (c :: ds) = n := by
      rw [← hcd, valAcc_digitsRec n 0]
      simp
    rw [valAcc_cons] at h0
    simpa using h0
  rw [hv]

theorem skipWs_append_ws :
    ∀ (ws X : List Char), wsOnly ws = true → skipWs (ws ++ X) = skipWs X := by
  intro ws
  induction ws with
  | nil => intro X _; rfl
  | cons c cs ih =>
    intro X h
    rw [wsOnly, List.all_cons] at h
    rw [List.cons_append, skipWs, if_pos (band_split h).1]
    exact ih X (band_split h).2

theorem skipWs_not_ws {c : Char} (cs : List Char) (h : wsChar c = false) :
    skipWs (c :: cs) = c :: cs := by
  rw [skipWs, h]
  rfl

theorem wsOnly_nsp (n : Nat) : wsOnly (nsp n) = true := by
  induction n with
  | zero => rfl
  | succ m ih =>
    rw [nsp, List.replicate_succ]
    rw [wsOnly, List.all_cons]
    exact Bool.and_eq_true_iff.mpr ⟨by decide, ih⟩

theorem parseVal_ws (f : Nat) (ws X : List Char) (h : wsOnly ws = true) :
    parseVal (f + 1) (ws ++ X) = parseVal (f + 1) X := by
  simp only [parseVal]
  rw [skipWs_append_ws ws X h]

theorem parseStrBody_escape :
    ∀ (cs rest : List Char),
      parseStrBody (escapeChars cs ++ '"' :: rest) = some (cs, rest) := by
  intro cs
  induction cs with
  | nil =>
    intro rest
    rw [escapeChars, List.nil_append, parseStrBody, if_pos rfl]
  | cons c cs ih =>
    intro rest
    by_cases hq : c = '"'
    · subst hq
      rw [escapeChars, if_pos rfl, List.cons_append, List.cons_append, parseStrBody,
        if_neg (by decide), if_pos rfl, parseEscape, if_pos (by decide), ih]
    · by_cases hb : c = '\\'
      · subst hb
        rw [escapeChars, if_neg (by decide), if_pos rfl, List.cons_append,
          List.cons_append, parseStrBody, if_neg (by decide), if_pos rfl,
          parseEscape, if_pos (by decide), ih]
      · rw [escapeChars, if_neg hq, if_neg hb, List.cons_append, parseStrBody,
          if_neg hq, if_neg hb, ih]

theorem parse_print_str (f : Nat) (s : String) (rest : List Char) :
    parseVal (f + 1) (printStr s ++ rest) = some (.str s, rest) := by
  simp only [parseVal, printStr, List.cons_append]
  rw [skipWs_not_ws _ (by decide)]
  simp only [reduceIte]
  rw [List.append_assoc, List.singleton_append, parseStrBody_escape]
  show some (JVal.str (String.mk s.data), rest) = some (.str s, rest)
  rw [show String.mk s.data = s from by cases s; rfl]

theorem isDigit_dispatch (c : Char) (h : c.isDigit = true) :
    wsChar c = false ∧ ¬ c = ']' ∧ ¬ c = 'n' ∧ ¬ c = 't' ∧ ¬ c = 'f' ∧ ¬ c = '"' ∧
    ¬ c = '-' ∧ ¬ c = '[' ∧ ¬ c = '{' := by
  have hne : ∀ x : Char, x.isDigit = false → ¬ c = x := by
    intro x hx heq
    rw [heq, hx] at h
    exact Bool.false_ne_true h
  have hws : wsChar c = false := by
    rw [Bool.eq_false_iff]
    intro hw
    rw [wsChar] at hw
    rcases Bool.or_eq_true_iff.mp hw with hw1 | hw3
    · rcases Bool.or_eq_true_iff.mp hw1 with hw4 | hw5
      · rcases Bool.or_eq_true_iff.mp hw4 with hw6 | hw7
        · exact hne ' ' (by decide) (eq_of_beq hw6)
        · exact hne (Char.ofNat 10) (by decide) (eq_of_beq hw7)
      · exact hne (Char.ofNat 9) (by decide) (eq_of_beq hw5)
    · exact hne (Char.ofNat 13) (by decide) (eq_of_beq hw3)
  exact ⟨hws, hne ']' (by decide), hne 'n' (by decide), hne 't' (by decide),
    hne 'f' (by decide), hne '"' (by decide), hne '-' (by decide),
    hne '[' (by decide), hne '{' (by decide)⟩

theorem skipWs_cons_ws {c : Char} (cs : List Char) (h : wsChar c = true) :
    skipWs (c :: cs) = skipWs cs := by
  rw [skipWs, if_pos h]

theorem wsOnly_break (k : Nat) : wsOnly ('\n' :: nsp k) = true := by
  rw [wsOnly, List.all_cons]
  exact Bool.and_eq_true_iff.mpr ⟨by decide, wsOnly_nsp k⟩

theorem headNonDigit_pER (d : Nat) (xs : JArr) (close : List Char) :
    headNonDigit (printElemsRest d xs ++ '\n' :: close) = true := by
  cases xs with
  | nil =>
    rw [printElemsRest, List.nil_append, headNonDigit]
    decide
  | cons x tl =>
    rw [printElemsRest, List.cons_append, headNonDigit]
    decide

theorem headNonDigit_pFR (d : Nat) (fs : JObj) (close : List Char) :
    headNonDigit (printFieldsRest d fs ++ '\n' :: close) = true := by
  cases fs with
  | nil =>
    rw [printFieldsRest, List.nil_append, headNonDigit]
    decide
  | cons k v tl =>
    rw [printFieldsRest, List.cons_append, headNonDigit]
    decide

theorem printVal_head (d : Nat) (v : JVal) :
    ∃ c cs, printVal d v = c :: cs ∧ wsChar c = false ∧ ¬ c = ']' := by
  cases v with
  | null => exact ⟨'n', _, rfl, by decide, by decide⟩
  | bool b =>
    cases b with
    | false => exact ⟨'f', _, rfl, by decide, by decide⟩
    | true => exact ⟨'t', _, rfl, by decide, by decide⟩
  | num n =>
    rw [show printVal d (.num n) = printInt n from rfl, printInt]
    by_cases hneg : n < 0
    · rw [if_pos hneg]
      exact ⟨'-', _, rfl, by decide, by decide⟩
    · rw [if_neg hneg]
      unfold natDigits
      by_cases h0 : n.natAbs = 0
      · rw [if_pos h0]
        exact ⟨'0', _, rfl, by decide, by decide⟩
      · rw [if_neg h0, natDigitsGo_eq _ _ _ (le_refl _), List.append_nil]
        obtain ⟨c, ds, hcd⟩ :=
          List.exists_cons_of_ne_nil (digitsRec_ne_nil _ (Nat.pos_of_ne_zero h0))
        have hdig := digitsRec_all_digit n.natAbs c (by rw [hcd]; simp)
        obtain ⟨hws, hrb, _⟩ := isDigit_dispatch c hdig
        exact ⟨c, ds, hcd, hws, hrb⟩
  | str s =>
    rw [show printVal d (.str s) = printStr s from rfl, printStr]
    exact ⟨'"', _, rfl, by decide, by decide⟩
  | arr xs =>
    cases xs with
    | nil => exact ⟨'[', _, rfl, by decide, by decide⟩
    | cons x tl => exact ⟨'[', _, rfl, by decide, by decide⟩
  | obj fs =>
    cases fs with
    | nil => exact ⟨'{', _, rfl, by decide, by decide⟩
    | cons k v tl => exact ⟨'{', _, rfl, by decide, by decide⟩
  | lazy f => exact ⟨'{', _, rfl, by decide, by decide⟩
  | jset es => exact ⟨'{', _, rfl, by decide, by decide⟩

theorem lookupF_none :
    ∀ (fs : JObj) (key : String), ¬ key ∈ keysF fs → lookupF fs key = none
  | .nil, _, _ => rfl
  | .cons k v tl, key, h => by
    rw [keysF] at h
    rw [lookupF, if_neg (fun hk => h (by rw [← hk]; exact List.mem_cons_self k _))]
    exact lookupF_none tl key (fun hm => h (List.mem_cons_of_mem k hm))

theorem object_hook_plain (fs : JObj) (h1 : lookupF fs "__lazy_json__" = none)
    (h2 : lookupF fs "__set__" = none) : object_hook fs = some (.obj fs) := by
  unfold object_hook
  rw [h1, h2]

theorem parseElemsTail_close (h d : Nat) (rest : List Char) :
    parseElemsTail (h + 1) ('\n' :: (nsp d ++ ']' :: rest)) = some (.nil, rest) := by
  simp only [parseElemsTail]
  rw [show ('\n' :: (nsp d ++ ']' :: rest)) = ('\n' :: nsp d) ++ ']' :: rest by simp,
    skipWs_append_ws _ _ (wsOnly_break d), skipWs_not_ws _ (by decide)]
  simp

theorem parseFieldsTail_close (h d : Nat) (rest : List Char) :
    parseFieldsTail (h + 1) ('\n' :: (nsp d ++ '}' :: rest)) = some (.nil, rest) := by
  simp only [parseFieldsTail]
  rw [show ('\n' :: (nsp d ++ '}' :: rest)) = ('\n' :: nsp d) ++ '}' :: rest by simp,
    skipWs_append_ws _ _ (wsOnly_break d), skipWs_not_ws _ (by decide)]
  simp

theorem parseElems_ws (f : Nat) (ws X : List Char) (h : wsOnly ws = true) :
    parseElems (f + 1) (ws ++ X) = parseElems (f + 1) X := by
  simp only [parseElems]
  rw [skipWs_append_ws ws X h]

theorem parseElemsTail_ws (f : Nat) (ws X : List Char) (h : wsOnly ws = true) :
    parseElemsTail (f + 1) (ws ++ X) = parseElemsTail (f + 1) X := by
  simp only [parseElemsTail]
  rw [skipWs_append_ws ws X h]

theorem parseFields_ws (f : Nat) (ws X : List Char) (h : wsOnly ws = true) :
    parseFields (f + 1) (ws ++ X) = parseFields (f + 1) X := by
  simp only [parseFields]
  rw [skipWs_append_ws ws X h]

theorem parseFieldsTail_ws (f : Nat) (ws X : List Char) (h : wsOnly ws = true) :
    parseFieldsTail (f + 1) (ws ++ X) = parseFieldsTail (f + 1) X := by
  simp only [parseFieldsTail]
  rw [skipWs_append_ws ws X h]

theorem parseVal_step_null (f : Nat) (cs : List Char) :
    parseVal (f + 1) ('n' :: 'u' :: 'l' :: 'l' :: cs) = some (.null, cs) := by
  simp only [parseVal]
  rw [skipWs_not_ws _ (by decide)]
  rfl

theorem parseVal_step_true (f : Nat) (cs : List Char) :
    parseVal (f + 1) ('t' :: 'r' :: 'u' :: 'e' :: cs) = some (.bool true, cs) := by
  simp only [parseVal]
  rw [skipWs_not_ws _ (by decide)]
  rfl

theorem parseVal_step_false (f : Nat) (cs : List Char) :
    parseVal (f + 1) ('f' :: 'a' :: 'l' :: 's' :: 'e' :: cs)
      = some (.bool false, cs) := by
  simp only [parseVal]
  rw [skipWs_not_ws _ (by decide)]
  rfl

theorem parseVal_step_quote (f : Nat) (cs : List Char) :
    parseVal (f + 1) ('"' :: cs) =
      match parseStrBody cs with
      | some r => some (.str (String.mk r.1), r.2)
      | none => none := by
  simp only [parseVal]
  rw [skipWs_not_ws _ (by decide)]
  rfl

theorem parseVal_step_minus (f : Nat) (c2 : Char) (cs : List Char)
    (h : c2.isDigit = true) :
    parseVal (f + 1) ('-' :: c2 :: cs) =
      match parseDigits cs (digitVal c2) with
      | (n, rest3) => some (.num (-(n : Int)), rest3) := by
  simp only [parseVal]
  rw [skipWs_not_ws _ (by decide)]
  dsimp only []
  rw [h]
  simp

theorem parseVal_step_digit (f : Nat) (c : Char) (cs : List Char)
    (h : c.isDigit = true) :
    parseVal (f + 1) (c :: cs) =
      match parseDigits cs (digitVal c) with
      | (n, rest2) => some (.num ((n : Int)), rest2) := by
  obtain ⟨hws, _, hn, ht, hf2, hq, hm, hlb, hlb2⟩ := isDigit_dispatch c h
  simp only [parseVal]
  rw [skipWs_not_ws _ hws]
  dsimp only []
  rw [if_neg hn, if_neg ht, if_neg hf2, if_neg hq, if_neg hm, if_neg hlb,
    if_neg hlb2, h]
  simp

theorem parseVal_step_lbracket (f : Nat) (cs : List Char) :
    parseVal (f + 1) ('[' :: cs) = parseElems f cs := by
  simp only [parseVal]
  rw [skipWs_not_ws _ (by decide)]
  rfl

theorem parseVal_step_lbrace (f : Nat) (cs : List Char) :
    parseVal (f + 1) ('{' :: cs) = parseFields f cs := by
  simp only [parseVal]
  rw [skipWs_not_ws _ (by decide)]
  rfl

theorem parseElems_step (f : Nat) (c : Char) (cs : List Char)
    (hws : wsChar c = false) (hrb : ¬ c = ']') :
    parseElems (f + 1) (c :: cs) =
      match parseVal f (c :: cs) with
      | some (v, rest2) =>
        match parseElemsTail f rest2 with
        | some (vs, rest3) => some (.arr (.cons v vs), rest3)
        | none => none
      | none => none := by
  simp only [parseElems]
  rw [skipWs_not_ws _ hws]
  dsimp only []
  rw [if_neg hrb]

theorem parseElems_step_rb (f : Nat) (cs : List Char) :
    parseElems (f + 1) (']' :: cs) = some (.arr .nil, cs) := by
  simp only [parseElems]
  rw [skipWs_not_ws _ (by decide)]
  rfl

theorem parseElemsTail_step_comma (f : Nat) (cs : List Char) :
    parseElemsTail (f + 1) (',' :: cs) =
      match parseVal f cs with
      | some (v, rest2) =>
        match parseElemsTail f rest2 with
        | some (vs, rest3) => some (.cons v vs, rest3)
        | none => none
      | none => none := by
  simp only [parseElemsTail]
  rw [skipWs_not_ws _ (by decide)]
  rfl

theorem parseFields_step_rb (f : Nat) (cs : List Char) :
    parseFields (f + 1) ('}' :: cs) = some (.obj .nil, cs) := by
  simp only [parseFields]
  rw [skipWs_not_ws _ (by decide)]
  rfl

theorem parseFields_step_quote (f : Nat) (cs : List Char) :
    parseFields (f + 1) ('"' :: cs) =
      match parseStrBody cs with
      | some kr =>
        match skipWs kr.2 with
        | ':' :: rest2 =>
          match parseVal f rest2 with
          | some (v, rest3) =>
            match parseFieldsTail f rest3 with
            | some (fs, rest4) =>
              match object_hook (.cons (String.mk kr.1) v fs) with
              | some w => some (w, rest4)
              | none => none
            | none => none
          | none => none
        | _ => none
      | none => none := by
  simp only [parseFields]
  rw [skipWs_not_ws _ (by decide)]
  rfl

theorem parseFieldsTail_step_comma (f : Nat) (cs : List Char) :
    parseFieldsTail (f + 1) (',' :: cs) =
      match skipWs cs with
      | '"' :: rest1 =>
        match parseStrBody rest1 with
        | some kr =>
          match skipWs kr.2 with
          | ':' :: rest3 =>
            match parseVal f rest3 with
            | some (v, rest4) =>
              match parseFieldsTail f rest4 with
              | some (fs, rest5) => some (.cons (String.mk kr.1) v fs, rest5)
              | none => none
            | none => none
          | _ => none
        | none => none
      | _ => none := by
  simp only [parseFieldsTail]
  rw [skipWs_not_ws _ (by decide)]
  rfl

theorem parse_printStrTail (ss : List String) :
    ∀ (f dd d2 : Nat) (rest : List Char), 2 * ss.length + 1 ≤ f →
      parseElemsTail f (printStrElemsRest dd ss ++ '\n' :: (nsp d2 ++ ']' :: rest))
        = some (strsToArr ss, rest) := by
  induction ss with
  | nil =>
    intro f dd d2 rest hf
    obtain ⟨g, rfl⟩ : ∃ g, f = g + 1 := ⟨f - 1, by omega⟩
    rw [printStrElemsRest, List.nil_append]
    exact parseElemsTail_close g d2 rest
  | cons s ss ih =>
    intro f dd d2 rest hf
    simp only [List.length_cons] at hf
    obtain ⟨g, rfl⟩ : ∃ g, f = g + 1 := ⟨f - 1, by omega⟩
    obtain ⟨g2, rfl⟩ : ∃ g2, g = g2 + 1 := ⟨g - 1, by omega⟩
    rw [printStrElemsRest]
    simp only [List.cons_append, List.append_assoc]
    rw [parseElemsTail_step_comma]
    have hws : ('\n' :: (nsp dd ++ (printStr s ++ (printStrElemsRest dd ss
        ++ '\n' :: (nsp d2 ++ ']' :: rest)))))
        = ('\n' :: nsp dd) ++ (printStr s ++ (printStrElemsRest dd ss
            ++ '\n' :: (nsp d2 ++ ']' :: rest))) := by
      simp
    rw [hws, parseVal_ws _ _ _ (wsOnly_break dd),
      parse_print_str g2 s (printStrElemsRest dd ss ++ '\n' :: (nsp d2 ++ ']' :: rest))]
    dsimp only []
    rw [ih (g2 + 1) dd d2 rest (by omega)]
    rfl

theorem parse_printStrArr (es : List String) (f d : Nat) (rest : List Char)
    (hf : 2 * es.length + 2 ≤ f) :
    parseVal f (printStrArr d es ++ rest) = some (.arr (strsToArr es), rest) := by
  obtain ⟨g, rfl⟩ : ∃ g, f = g + 1 := ⟨f - 1, by omega⟩
  obtain ⟨g2, rfl⟩ : ∃ g2, g = g2 + 1 := ⟨g - 1, by omega⟩
  cases es with
  | nil =>
    rw [printStrArr]
    simp only [List.cons_append, List.nil_append]
    rw [parseVal_step_lbracket, parseElems_step_rb]
    rfl
  | cons s ss =>
    simp only [List.length_cons] at hf
    rw [printStrArr]
    simp only [List.cons_append, List.append_assoc, List.nil_append]
    rw [parseVal_step_lbracket]
    have hws : ('\n' :: (nsp (d + 1) ++ (printStr s ++ (printStrElemsRest (d + 1) ss
        ++ '\n' :: (nsp d ++ ']' :: rest)))))
        = ('\n' :: nsp (d + 1)) ++ (printStr s ++ (printStrElemsRest (d + 1) ss
            ++ '\n' :: (nsp d ++ ']' :: rest))) := by
      simp
    rw [hws, parseElems_ws _ _ _ (wsOnly_break (d + 1)), printStr, List.cons_append,
      parseElems_step g2 '"' _ (by decide) (by decide), ← List.cons_append, ← printStr]
    obtain ⟨g3, rfl⟩ : ∃ g3, g2 = g3 + 1 := ⟨g2 - 1, by omega⟩
    rw [parse_print_str g3 s _]
    dsimp only []
    rw [parse_printStrTail ss (g3 + 1) (d + 1) d rest (by omega)]
    rfl

theorem pfuelV_pos (v : JVal) : 1 ≤ pfuelV v := by
  cases v <;> simp only [pfuelV] <;> omega

mutual
theorem parsePrintV : ∀ (v : JVal) (d f : Nat) (rest : List Char),
    canonicalV v = true → pfuelV v ≤ f → headNonDigit rest = true →
    parseVal f (printVal d v ++ rest) = some (v, rest)
  | .null, d, f, rest => fun _ hf _ => by
    obtain ⟨g, rfl⟩ : ∃ g, f = g + 1 := ⟨f - 1, by simp only [pfuelV] at hf; omega⟩
    rw [show printVal d .null = 'n' :: 'u' :: 'l' :: 'l' :: [] from rfl]
    simp only [List.cons_append, List.nil_append]
    exact parseVal_step_null g rest
  | .bool true, d, f, rest => fun _ hf _ => by
    obtain ⟨g, rfl⟩ : ∃ g, f = g + 1 := ⟨f - 1, by simp only [pfuelV] at hf; omega⟩
    rw [show printVal d (.bool true) = 't' :: 'r' :: 'u' :: 'e' :: [] from rfl]
    simp only [List.cons_append, List.nil_append]
    exact parseVal_step_true g rest
  | .bool false, d, f, rest => fun _ hf _ => by
    obtain ⟨g, rfl⟩ : ∃ g, f = g + 1 := ⟨f - 1, by simp only [pfuelV] at hf; omega⟩
    rw [show printVal d (.bool false) = 'f' :: 'a' :: 'l' :: 's' :: 'e' :: [] from rfl]
    simp only [List.cons_append, List.nil_append]
    exact parseVal_step_false g rest
  | .num n, d, f, rest => fun _ hf hr => by
    obtain ⟨g, rfl⟩ : ∃ g, f = g + 1 := ⟨f - 1, by simp only [pfuelV] at hf; omega⟩
    rw [show printVal d (.num n) = printInt n from rfl, printInt]
    by_cases hneg : n < 0
    · rw [if_pos hneg]
      have hpos : 0 < n.natAbs := by omega
      obtain ⟨c, ds, hcd, hcdig, hparse⟩ := parse_digits_run n.natAbs hpos
      rw [natDigits_eq _ hpos, hcd]
      simp only [List.cons_append]
      rw [parseVal_step_minus g c (ds ++ rest) hcdig, hparse rest hr]
      simp only []
      have habs : -((n.natAbs : Nat) : Int) = n := by omega
      rw [habs]
    · rw [if_neg hneg]
      by_cases h0 : n.natAbs = 0
      · have hn0 : n = 0 := by omega
        subst hn0
        rw [show (0 : Int).natAbs = 0 from rfl, show natDigits 0 = ['0'] from rfl]
        simp only [List.cons_append, List.nil_append]
        rw [parseVal_step_digit g '0' rest (by decide), parseDigits_stop rest _ hr]
        simp only []
        rw [show digitVal '0' = 0 from rfl]
        rfl
      · have hpos : 0 < n.natAbs := Nat.pos_of_ne_zero h0
        obtain ⟨c, ds, hcd, hcdig, hparse⟩ := parse_digits_run n.natAbs hpos
        rw [natDigits_eq _ hpos, hcd]
        simp only [List.cons_append]
        rw [parseVal_step_digit g c (ds ++ rest) hcdig, hparse rest hr]
        simp only []
        have habs : ((n.natAbs : Nat) : Int) = n := by omega
        rw [habs]
  | .str s, d, f, rest => fun _ hf _ => by
    obtain ⟨g, rfl⟩ : ∃ g, f = g + 1 := ⟨f - 1, by simp only [pfuelV] at hf; omega⟩
    rw [show printVal d (.str s) = printStr s from rfl]
    exact parse_print_str g s rest
  | .arr .nil, d, f, rest => fun _ hf _ => by
    simp only [pfuelV, pfuelA] at hf
    obtain ⟨g, rfl⟩ : ∃ g, f = g + 1 := ⟨f - 1, by omega⟩
    obtain ⟨g2, rfl⟩ : ∃ g2, g = g2 + 1 := ⟨g - 1, by omega⟩
    rw [show printVal d (.arr .nil) = ['[', ']'] from rfl]
    simp only [List.cons_append, List.nil_append]
    rw [parseVal_step_lbracket, parseElems_step_rb]
  | .arr (.cons x xs), d, f, rest => fun hc hf _ => by
    simp only [pfuelV, pfuelA] at hf
    simp only [canonicalV, canonicalA] at hc
    obtain ⟨hcx, hcxs⟩ := band_split hc
    obtain ⟨g, rfl⟩ : ∃ g, f = g + 1 := ⟨f - 1, by omega⟩
    obtain ⟨g2, rfl⟩ : ∃ g2, g = g2 + 1 := ⟨g - 1, by omega⟩
    rw [show printVal d (.arr (.cons x xs))
        = '[' :: '\n' :: (nsp (d + 1) ++ printVal (d + 1) x
          ++ printElemsRest (d + 1) xs ++ '\n' :: (nsp d ++ [']'])) from rfl]
    simp only [List.cons_append, List.append_assoc, List.nil_append]
    rw [parseVal_step_lbracket]
    rw [show ('\n' :: (nsp (d + 1) ++ (printVal (d + 1) x ++ (printElemsRest (d + 1) xs
        ++ '\n' :: (nsp d ++ ']' :: rest)))))
        = ('\n' :: nsp (d + 1)) ++ (printVal (d + 1) x ++ (printElemsRest (d + 1) xs
            ++ '\n' :: (nsp d ++ ']' :: rest))) from by simp]
    rw [parseElems_ws _ _ _ (wsOnly_break (d + 1))]
    obtain ⟨ch, csx, hhead, hhws, hhrb⟩ := printVal_head (d + 1) x
    rw [hhead, List.cons_append, parseElems_step g2 ch _ hhws hhrb,
      ← List.cons_append, ← hhead]
    rw [parsePrintV x (d + 1) g2 _ hcx (by omega) (headNonDigit_pER (d + 1) xs _)]
    simp only []
    rw [parsePrintA xs d g2 rest hcxs (by omega)]
  | .obj .nil, d, f, rest => fun _ hf _ => by
    simp only [pfuelV, pfuelF] at hf
    obtain ⟨g, rfl⟩ : ∃ g, f = g + 1 := ⟨f - 1, by omega⟩
    obtain ⟨g2, rfl⟩ : ∃ g2, g = g2 + 1 := ⟨g - 1, by omega⟩
    rw [show printVal d (.obj .nil) = ['{', '}'] from rfl]
    simp only [List.cons_append, List.nil_append]
    rw [parseVal_step_lbrace, parseFields_step_rb]
  | .obj (.cons k v fs), d, f, rest => fun hc hf _ => by
    simp only [pfuelV, pfuelF] at hf
    simp only [canonicalV, canonicalF, keysF] at hc
    have hcv : canonicalV v = true :=
      (band_split (band_split (band_split (band_split (band_split hc).1).1).1).1).2
    have hcfs : canonicalF fs = true :=
      (band_split (band_split (band_split (band_split hc).1).1).1).2
    have hmark1 : ¬ "__lazy_json__" ∈ keysF (JObj.cons k v fs) := by
      have := (band_split (band_split hc).1).2
      rw [keysF]
      simpa [contains_eq_true_iff] using this
    have hmark2 : ¬ "__set__" ∈ keysF (JObj.cons k v fs) := by
      have := (band_split hc).2
      rw [keysF]
      simpa [contains_eq_true_iff] using this
    obtain ⟨g, rfl⟩ : ∃ g, f = g + 1 := ⟨f - 1, by omega⟩
    obtain ⟨g2, rfl⟩ : ∃ g2, g = g2 + 1 := ⟨g - 1, by omega⟩
    obtain ⟨g3, rfl⟩ : ∃ g3, g2 = g3 + 1 := ⟨g2 - 1, by omega⟩
    rw [show printVal d (.obj (.cons k v fs))
        = '{' :: '\n' :: (nsp (d + 1) ++ printStr k ++ ':' :: ' '
          :: (printVal (d + 1) v ++ printFieldsRest (d + 1) fs
            ++ '\n' :: (nsp d ++ ['}']))) from rfl]
    simp only [List.cons_append, List.append_assoc, List.nil_append]
    rw [parseVal_step_lbrace]
    rw [show ('\n' :: (nsp (d + 1) ++ (printStr k ++ ':' :: ' '
        :: (printVal (d + 1) v ++ (printFieldsRest (d + 1) fs
          ++ '\n' :: (nsp d ++ '}' :: rest))))))
        = ('\n' :: nsp (d + 1)) ++ (printStr k ++ ':' :: ' '
          :: (printVal (d + 1) v ++ (printFieldsRest (d + 1) fs
            ++ '\n' :: (nsp d ++ '}' :: rest)))) from by simp]
    rw [parseFields_ws _ _ _ (wsOnly_break (d + 1)), printStr]
    simp only [List.cons_append, List.append_assoc, List.singleton_append]
    rw [parseFields_step_quote, parseStrBody_escape]
    simp only []
    simp only [List.nil_append]
    rw [skipWs_not_ws _ (by decide)]
    simp only []
    rw [show (' ' :: (printVal (d + 1) v ++ (printFieldsRest (d + 1) fs
        ++ '\n' :: (nsp d ++ '}' :: rest))))
        = [' '] ++ (printVal (d + 1) v ++ (printFieldsRest (d + 1) fs
          ++ '\n' :: (nsp d ++ '}' :: rest))) from rfl]
    rw [parseVal_ws _ _ _ (by decide)]
    rw [parsePrintV v (d + 1) (g3 + 1) _ hcv (by omega)
      (headNonDigit_pFR (d + 1) fs _)]
    simp only []
    rw [parsePrintF fs d (g3 + 1) rest hcfs (by omega)]
    simp only []
    rw [show String.mk k.data = k from by cases k; rfl,
      object_hook_plain _ (lookupF_none _ _ hmark1) (lookupF_none _ _ hmark2)]
  | .lazy name, d, f, rest => fun _ hf _ => by
    simp only [pfuelV] at hf
    obtain ⟨g, rfl⟩ : ∃ g, f = g + 1 := ⟨f - 1, by omega⟩
    obtain ⟨g2, rfl⟩ : ∃ g2, g = g2 + 1 := ⟨g - 1, by omega⟩
    obtain ⟨g3, rfl⟩ : ∃ g3, g2 = g3 + 1 := ⟨g2 - 1, by omega⟩
    rw [show printVal d (.lazy name)
        = '{' :: '\n' :: (nsp (d + 1) ++ printStr "__lazy_json__" ++ ':' :: ' '
          :: (printStr name ++ '\n' :: (nsp d ++ ['}']))) from rfl]
    simp only [List.cons_append, List.append_assoc, List.nil_append]
    rw [parseVal_step_lbrace]
    rw [show ('\n' :: (nsp (d + 1) ++ (printStr "__lazy_json__" ++ ':' :: ' '
        :: (printStr name ++ '\n' :: (nsp d ++ '}' :: rest)))))
        = ('\n' :: nsp (d + 1)) ++ (printStr "__lazy_json__" ++ ':' :: ' '
          :: (printStr name ++ '\n' :: (nsp d ++ '}' :: rest))) from by simp]
    rw [parseFields_ws _ _ _ (wsOnly_break (d + 1)),
      show printStr "__lazy_json__" = '"' :: (escapeChars "__lazy_json__".data
        ++ ['"']) from rfl]
    simp only [List.cons_append, List.append_assoc, List.singleton_append]
    rw [parseFields_step_quote, parseStrBody_escape]
    simp only []
    simp only [List.nil_append]
    rw [skipWs_not_ws _ (by decide)]
    simp only []
    rw [show (' ' :: (printStr name ++ '\n' :: (nsp d ++ '}' :: rest)))
        = [' '] ++ (printStr name ++ '\n' :: (nsp d ++ '}' :: rest)) from rfl]
    rw [parseVal_ws _ _ _ (by decide), parse_print_str g3 name _]
    simp only []
    rw [parseFieldsTail_close g3 d rest]
    simp only []
    rw [show String.mk ("__lazy_json__".data) = "__lazy_json__" from by decide]
    rw [show object_hook (.cons "__lazy_json__" (.str name) .nil)
        = some (.lazy name) from by
      unfold object_hook
      rw [show lookupF (.cons "__lazy_json__" (.str name) .nil) "__lazy_json__"
          = some (.str name) from by rw [lookupF, if_pos rfl]]]
  | .jset es, d, f, rest => fun _ hf _ => by
    simp only [pfuelV] at hf
    obtain ⟨g, rfl⟩ : ∃ g, f = g + 1 := ⟨f - 1, by omega⟩
    obtain ⟨g2, rfl⟩ : ∃ g2, g = g2 + 1 := ⟨g - 1, by omega⟩
    obtain ⟨g3, rfl⟩ : ∃ g3, g2 = g3 + 1 := ⟨g2 - 1, by omega⟩
    obtain ⟨g4, rfl⟩ : ∃ g4, g3 = g4 + 1 := ⟨g3 - 1, by omega⟩
    obtain ⟨g5, rfl⟩ : ∃ g5, g4 = g5 + 1 := ⟨g4 - 1, by omega⟩
    rw [show printVal d (.jset es)
        = '{' :: '\n' :: (nsp (d + 1) ++ printStr "__set__" ++ ':' :: ' '
          :: ('t' :: 'r' :: 'u' :: 'e' :: ',' :: '\n' :: (nsp (d + 1)
            ++ printStr "elements" ++ ':' :: ' ' :: (printStrArr (d + 1) es
              ++ '\n' :: (nsp d ++ ['}'])))))  from rfl]
    simp only [List.cons_append, List.append_assoc, List.nil_append]
    rw [parseVal_step_lbrace]
    rw [show ('\n' :: (nsp (d + 1) ++ (printStr "__set__" ++ ':' :: ' '
        :: ('t' :: 'r' :: 'u' :: 'e' :: ',' :: '\n' :: (nsp (d + 1)
          ++ (printStr "elements" ++ ':' :: ' ' :: (printStrArr (d + 1) es
            ++ '\n' :: (nsp d ++ '}' :: rest))))))))
        = ('\n' :: nsp (d + 1)) ++ (printStr "__set__" ++ ':' :: ' '
          :: ('t' :: 'r' :: 'u' :: 'e' :: ',' :: '\n' :: (nsp (d + 1)
            ++ (printStr "elements" ++ ':' :: ' ' :: (printStrArr (d + 1) es
              ++ '\n' :: (nsp d ++ '}' :: rest)))))) from by simp]
    rw [parseFields_ws _ _ _ (wsOnly_break (d + 1)),
      show printStr "__set__" = '"' :: (escapeChars "__set__".data ++ ['"']) from rfl]
    simp only [List.cons_append, List.append_assoc, List.singleton_append]
    rw [parseFields_step_quote, parseStrBody_escape]
    simp only []
    simp only [List.nil_append]
    rw [skipWs_not_ws _ (by decide)]
    simp only []
    rw [show (' ' :: ('t' :: 'r' :: 'u' :: 'e' :: (',' :: '\n' :: (nsp (d + 1)
        ++ (printStr "elements" ++ ':' :: ' ' :: (printStrArr (d + 1) es
          ++ '\n' :: (nsp d ++ '}' :: rest))))))) = [' ']
        ++ ('t' :: 'r' :: 'u' :: 'e' :: (',' :: '\n' :: (nsp (d + 1)
          ++ (printStr "elements" ++ ':' :: ' ' :: (printStrArr (d + 1) es
            ++ '\n' :: (nsp d ++ '}' :: rest)))))) from rfl]
    rw [parseVal_ws _ _ _ (by decide), parseVal_step_true]
    simp only []
    rw [parseFieldsTail_step_comma]
    rw [show ('\n' :: (nsp (d + 1) ++ (printStr "elements" ++ ':' :: ' '
        :: (printStrArr (d + 1) es ++ '\n' :: (nsp d ++ '}' :: rest)))))
        = ('\n' :: nsp (d + 1)) ++ (printStr "elements" ++ ':' :: ' '
          :: (printStrArr (d + 1) es ++ '\n' :: (nsp d ++ '}' :: rest))) from by simp]
    rw [skipWs_append_ws _ _ (wsOnly_break (d + 1)),
      show printStr "elements" = '"' :: (escapeChars "elements".data ++ ['"']) from rfl]
    simp only [List.cons_append, List.append_assoc, List.singleton_append]
    rw [skipWs_not_ws _ (by decide)]
    simp only []
    rw [parseStrBody_escape]
    simp only []
    simp only [List.nil_append]
    rw [skipWs_not_ws _ (by decide)]
    simp only []
    rw [show (' ' :: (printStrArr (d + 1) es ++ '\n' :: (nsp d ++ '}' :: rest)))
        = [' '] ++ (printStrArr (d + 1) es ++ '\n' :: (nsp d ++ '}' :: rest)) from rfl]
    rw [parseVal_ws _ _ _ (by decide),
      parse_printStrArr es (g5 + 1 + 1) (d + 1) _ (by omega)]
    simp only []
    rw [parseFieldsTail_close (g5 + 1) d rest]
    simp only []
    rw [show String.mk ("elements".data) = "elements" from by decide,
      show String.mk ("__set__".data) = "__set__" from by decide]
    rw [show object_hook (.cons "__set__" (.bool true)
        (.cons "elements" (.arr (strsToArr es)) .nil)) = some (.jset es) from by
      unfold object_hook
      rw [show lookupF (.cons "__set__" (.bool true)
          (.cons "elements" (.arr (strsToArr es)) .nil)) "__lazy_json__" = none from by
        rw [lookupF, if_neg (by decide), lookupF, if_neg (by decide), lookupF]]
      rw [show lookupF (.cons "__set__" (.bool true)
          (.cons "elements" (.arr (strsToArr es)) .nil)) "__set__"
          = some (.bool true) from by rw [lookupF, if_pos rfl]]
      rw [show lookupF (.cons "__set__" (.bool true)
          (.cons "elements" (.arr (strsToArr es)) .nil)) "elements"
          = some (.arr (strsToArr es)) from by
        rw [lookupF, if_neg (by decide), lookupF, if_pos rfl]]
      simp only []
      rw [strListOfArr_strsToArr]
      rfl]
theorem parsePrintA : ∀ (xs : JArr) (d f : Nat) (rest : List Char),
    canonicalA xs = true → pfuelA xs ≤ f →
    parseElemsTail f (printElemsRest (d + 1) xs ++ '\n' :: (nsp d ++ ']' :: rest))
      = some (xs, rest)
  | .nil, d, f, rest => fun _ hf => by
    obtain ⟨g, rfl⟩ : ∃ g, f = g + 1 := ⟨f - 1, by simp only [pfuelA] at hf; omega⟩
    rw [printElemsRest, List.nil_append]
    exact parseElemsTail_close g d rest
  | .cons x xs, d, f, rest => fun hc hf => by
    simp only [pfuelA] at hf
    simp only [canonicalA] at hc
    obtain ⟨hcx, hcxs⟩ := band_split hc
    have hpx := pfuelV_pos x
    obtain ⟨g, rfl⟩ : ∃ g, f = g + 1 := ⟨f - 1, by omega⟩
    obtain ⟨g2, rfl⟩ : ∃ g2, g = g2 + 1 := ⟨g - 1, by omega⟩
    rw [printElemsRest]
    simp only [List.cons_append, List.append_assoc, List.nil_append]
    rw [parseElemsTail_step_comma]
    rw [show ('\n' :: (nsp (d + 1) ++ (printVal (d + 1) x ++ (printElemsRest (d + 1) xs
        ++ '\n' :: (nsp d ++ ']' :: rest)))))
        = ('\n' :: nsp (d + 1)) ++ (printVal (d + 1) x ++ (printElemsRest (d + 1) xs
            ++ '\n' :: (nsp d ++ ']' :: rest))) from by simp]
    rw [parseVal_ws _ _ _ (wsOnly_break (d + 1))]
    rw [parsePrintV x (d + 1) (g2 + 1) _ hcx (by omega)
      (headNonDigit_pER (d + 1) xs _)]
    simp only []
    rw [parsePrintA xs d (g2 + 1) rest hcxs (by omega)]
theorem parsePrintF : ∀ (fs : JObj) (d f : Nat) (rest : List Char),
    canonicalF fs = true → pfuelF fs ≤ f →
    parseFieldsTail f (printFieldsRest (d + 1) fs ++ '\n' :: (nsp d ++ '}' :: rest))
      = some (fs, rest)
  | .nil, d, f, rest => fun _ hf => by
    obtain ⟨g, rfl⟩ : ∃ g, f = g + 1 := ⟨f - 1, by simp only [pfuelF] at hf; omega⟩
    rw [printFieldsRest, List.nil_append]
    exact parseFieldsTail_close g d rest
  | .cons k v fs, d, f, rest => fun hc hf => by
    simp only [pfuelF] at hf
    simp only [canonicalF] at hc
    have hcv : canonicalV v = true := (band_split (band_split hc).1).2
    have hcfs : canonicalF fs = true := (band_split hc).2
    have hpv := pfuelV_pos v
    obtain ⟨g, rfl⟩ : ∃ g, f = g + 1 := ⟨f - 1, by omega⟩
    obtain ⟨g2, rfl⟩ : ∃ g2, g = g2 + 1 := ⟨g - 1, by omega⟩
    rw [printFieldsRest]
    simp only [List.cons_append, List.append_assoc, List.nil_append]
    rw [parseFieldsTail_step_comma]
    rw [show ('\n' :: (nsp (d + 1) ++ (printStr k ++ ':' :: ' '
        :: (printVal (d + 1) v ++ (printFieldsRest (d + 1) fs
          ++ '\n' :: (nsp d ++ '}' :: rest))))))
        = ('\n' :: nsp (d + 1)) ++ (printStr k ++ ':' :: ' '
          :: (printVal (d + 1) v ++ (printFieldsRest (d + 1) fs
            ++ '\n' :: (nsp d ++ '}' :: rest)))) from by simp]
    rw [skipWs_append_ws _ _ (wsOnly_break (d + 1)), printStr]
    simp only [List.cons_append, List.append_assoc, List.singleton_append]
    rw [skipWs_not_ws _ (by decide)]
    simp only []
    rw [parseStrBody_escape]
    simp only []
    simp only [List.nil_append]
    rw [skipWs_not_ws _ (by decide)]
    simp only []
    rw [show (' ' :: (printVal (d + 1) v ++ (printFieldsRest (d + 1) fs
        ++ '\n' :: (nsp d ++ '}' :: rest))))
        = [' '] ++ (printVal (d + 1) v ++ (printFieldsRest (d + 1) fs
          ++ '\n' :: (nsp d ++ '}' :: rest))) from rfl]
    rw [parseVal_ws _ _ _ (by decide)]
    rw [parsePrintV v (d + 1) (g2 + 1) _ hcv (by omega)
      (headNonDigit_pFR (d + 1) fs _)]
    simp only []
    rw [parsePrintF fs d (g2 + 1) rest hcfs (by omega)]
end

/-- Every printed string literal is at least the two quote characters long. -/
theorem printStr_len (s : String) : 2 ≤ (printStr s).length := by
  simp only [printStr, List.length_cons, List.length_append, List.length_singleton]
  omega

theorem printStrElemsRest_len (d : Nat) :
    ∀ es : List String, 2 * es.length ≤ (printStrElemsRest d es).length := by
  intro es
  induction es with
  | nil => simp [printStrElemsRest]
  | cons e tl ih =>
    have h := printStr_len e
    simp only [printStrElemsRest, List.length_cons, List.length_append]
    omega

theorem printStrArr_len (d : Nat) :
    ∀ es : List String, 2 * es.length + 2 ≤ (printStrArr d es).length := by
  intro es
  cases es with
  | nil => simp [printStrArr]
  | cons e tl =>
    have h1 := printStr_len e
    have h2 := printStrElemsRest_len (d + 1) tl
    simp only [printStrArr, List.length_cons, List.length_append, List.length_singleton]
    omega

mutual
/-- The printed form of a value is long enough to supply its own parsing fuel. -/
theorem pfuel_le_printV : ∀ (v : JVal) (d : Nat),
    pfuelV v ≤ (printVal d v).length + 1
  | .null, d => by simp [pfuelV, printVal]
  | .bool true, d => by simp [pfuelV, printVal]
  | .bool false, d => by simp [pfuelV, printVal]
  | .num n, d => by simp only [pfuelV]; omega
  | .str s, d => by simp only [pfuelV]; omega
  | .arr .nil, d => by simp [pfuelV, pfuelA, printVal]
  | .arr (.cons x xs), d => by
    have h1 := pfuel_le_printV x (d + 1)
    have h2 := pfuel_le_printA xs (d + 1)
    simp only [pfuelV, pfuelA, printVal, List.length_cons, List.length_append,
      List.length_singleton, List.length_nil, nsp, List.length_replicate]
    omega
  | .obj .nil, d => by simp [pfuelV, pfuelF, printVal]
  | .obj (.cons k v fs), d => by
    have h1 := pfuel_le_printV v (d + 1)
    have h2 := pfuel_le_printF fs (d + 1)
    simp only [pfuelV, pfuelF, printVal, List.length_cons, List.length_append,
      List.length_singleton, List.length_nil, nsp, List.length_replicate]
    omega
  | .lazy f, d => by
    have h1 := printStr_len f
    simp only [pfuelV, printVal, List.length_cons, List.length_append,
      List.length_singleton, List.length_nil, nsp, List.length_replicate]
    omega
  | .jset es, d => by
    have h1 := printStrArr_len (d + 1) es
    simp only [pfuelV, printVal, List.length_cons, List.length_append,
      List.length_singleton, List.length_nil, nsp, List.length_replicate]
    omega
theorem pfuel_le_printA : ∀ (xs : JArr) (d : Nat),
    pfuelA xs ≤ (printElemsRest d xs).length + 2
  | .nil, d => by simp [pfuelA, printElemsRest]
  | .cons x xs, d => by
    have h1 := pfuel_le_printV x d
    have h2 := pfuel_le_printA xs d
    simp only [pfuelA, printElemsRest, List.length_cons, List.length_append]
    omega
theorem pfuel_le_printF : ∀ (fs : JObj) (d : Nat),
    pfuelF fs ≤ (printFieldsRest d fs).length + 2
  | .nil, d => by simp [pfuelF, printFieldsRest]
  | .cons k v fs, d => by
    have h1 := pfuel_le_printV v d
    have h2 := pfuel_le_printF fs d
    simp only [pfuelF, printFieldsRest, List.length_cons, List.length_append]
    omega
end

/-- C3: serializing any valid document value (objects with distinct, marker-free,
printable keys) and deserializing reproduces the canonically sorted equivalent
value, and re-serializing that result is byte-identical to the first
serialization. -/
theorem dumps_loads_roundtrip (v : JVal) (hv : canonicalV (canonV v) = true) :
    loads (dumps v) = some (canonV v) ∧
      (loads (dumps v)).map dumps = some (dumps v) := by
  have hdata : (dumps v).data = printVal 0 (canonV v) := rfl
  have hparse : parseVal ((printVal 0 (canonV v)).length + 1)
      (printVal 0 (canonV v)) = some (canonV v, []) := by
    have h := parsePrintV (canonV v) 0 ((printVal 0 (canonV v)).length + 1) []
      hv (pfuel_le_printV (canonV v) 0) rfl
    rw [List.append_nil] at h
    exact h
  have hl : loads (dumps v) = some (canonV v) := by
    rw [loads, hdata, hparse]
    simp only []
    rw [if_pos (show skipWs ([] : List Char) = [] from rfl)]
  refine ⟨hl, ?_⟩
  rw [hl]
  show some (dumps (canonV v)) = some (dumps v)
  rw [show dumps (canonV v) = dumps v from by
    rw [dumps, dumps, canonV_id (canonV v) hv]]

set_option maxRecDepth 10000 in
theorem dumps_loads_roundtrip_witness :
    canonicalV (canonV rtExample) = true ∧
      (loads (dumps rtExample) = some (canonV rtExample) ∧
        (loads (dumps rtExample)).map dumps = some (dumps rtExample)) :=
  ⟨by decide, dumps_loads_roundtrip rtExample (by decide)⟩

end LazyJsonBackends
